import Mathlib

/-!
Verification development for the par-lang session-type core.

This file shallowly embeds the type algebra, the bidirectional type
checker, and the state-level runtime context of the repository
(src/par/types.rs and src/par/runtime.rs) into Lean, and proves or
refutes the frozen specification claims against that embedding.

Modelling conventions:
the source carries a span on every node purely for diagnostics; spans
are dropped here (claims about structural identity are read modulo
spans, as the specification itself demands).  Names are compared by
identifier string in the source, so names are plain strings here.
IndexMap and IndexSet are insertion-ordered containers; they are
embedded as association lists and lists with the same insert, lookup
and shift-remove behaviour.  Partial functions of the source (the
checker and the type algebra recurse through named-type unfolding and
fixpoint expansion, which need not terminate on arbitrary inputs) are
embedded with an explicit fuel parameter; running out of fuel is the
distinguished value none, kept apart from genuine errors.
-/

set_option maxHeartbeats 1000000
set_option linter.unusedVariables false
set_option linter.unreachableTactic false
set_option linter.unusedTactic false

namespace ParLang

/-- Names in the checker are compared by identifier only; the module
qualifier plays no role in the claims, so a name is a string. -/
abbrev NameS := String

/-- PrimitiveType from src/par/types.rs (only Int exists there). -/
inductive PrimT where
  | int
deriving Repr, DecidableEq

/-- Type from src/par/types.rs, spans dropped.  Branch maps (IndexMap)
become association lists preserving insertion order; ascendant sets
(IndexSet of optional labels) become lists. -/
inductive Ty where
  | primitive (p : PrimT)
  | chan (t : Ty)
  | var (n : NameS)
  | name (n : NameS) (args : List Ty)
  | send (t : Ty) (u : Ty)
  | receive (t : Ty) (u : Ty)
  | either (branches : List (NameS × Ty))
  | choice (branches : List (NameS × Ty))
  | break_
  | continue_
  | recursive (asc : List (Option NameS)) (label : Option NameS) (body : Ty)
  | iterative (asc : List (Option NameS)) (label : Option NameS) (body : Ty)
  | self_ (label : Option NameS)
  | sendType (n : NameS) (body : Ty)
  | receiveType (n : NameS) (body : Ty)
deriving Repr, Inhabited

/-- TypeError from src/par/types.rs, spans dropped, payloads kept. -/
inductive TypeError where
  | typeNameAlreadyDefined (n : NameS)
  | nameAlreadyDeclared (n : NameS)
  | nameAlreadyDefined (n : NameS)
  | declaredButNotDefined (n : NameS)
  | noMatchingRecursiveOrIterative (l : Option NameS)
  | selfUsedInNegativePosition (l : Option NameS)
  | typeNameNotDefined (n : NameS)
  | dependencyCycle (cycle : List NameS)
  | wrongNumberOfTypeArgs (n : NameS) (expected : Nat) (got : Nat)
  | nameNotDefined (n : NameS)
  | shadowedObligation (n : NameS)
  | typeMustBeKnownAtThisPoint (n : NameS)
  | parameterTypeMustBeKnown (subject : NameS) (param : NameS)
  | cannotAssignFromTo (from_ : Ty) (to_ : Ty)
  | unfulfilledObligations (ns : List NameS)
  | invalidOperation (t : Ty)
  | invalidBranch (b : NameS) (t : Ty)
  | missingBranch (b : NameS) (t : Ty)
  | redundantBranch (b : NameS) (t : Ty)
  | typesCannotBeUnified (t1 : Ty) (t2 : Ty)
  | noSuchLoopPoint (l : Option NameS)
  | doesNotDescendSubjectOfBegin (l : Option NameS)
  | loopVariableNotPreserved (n : NameS)
  | loopVariableChangedType (n : NameS) (current : Ty) (atBegin : Ty)
  | telltypes (vars : List (NameS × Ty))
deriving Repr

/-- Association-list lookup, the embedding of IndexMap::get. -/
def alookup {β : Type} : List (NameS × β) → NameS → Option β
  | [], _ => none
  | (k, v) :: rest, n => if k = n then some v else alookup rest n

/-- IndexMap::insert: replace in place when the key exists, else append. -/
def ainsert {β : Type} : List (NameS × β) → NameS → β → List (NameS × β)
  | [], n, v => [(n, v)]
  | (k, w) :: rest, n, v => if k = n then (n, v) :: rest else (k, w) :: ainsert rest n v

/-- IndexMap::shift_remove: drop the entry, keeping the rest in order. -/
def aremove {β : Type} : List (NameS × β) → NameS → List (NameS × β)
  | [], _ => []
  | (k, v) :: rest, n => if k = n then rest else (k, v) :: aremove rest n

/-- Lookup over loop-point maps keyed by an optional label. -/
def olookup {β : Type} : List (Option NameS × β) → Option NameS → Option β
  | [], _ => none
  | (k, v) :: rest, n => if k = n then some v else olookup rest n

/-- Insert for loop-point maps keyed by an optional label. -/
def oinsert {β : Type} : List (Option NameS × β) → Option NameS → β → List (Option NameS × β)
  | [], n, v => [(n, v)]
  | (k, w) :: rest, n, v => if k = n then (n, v) :: rest else (k, w) :: oinsert rest n v

/-- IndexSet::insert on an ascendant set: append when absent. -/
def sinsert (s : List (Option NameS)) (l : Option NameS) : List (Option NameS) :=
  if l ∈ s then s else s ++ [l]

/-- IndexSet::shift_remove on an ascendant set. -/
def sremove (s : List (Option NameS)) (l : Option NameS) : List (Option NameS) :=
  s.filter (fun x => x ≠ l)

/-- TypeDefs from src/par/types.rs: the installed global definitions
(name to parameter list and body) plus the in-scope type variable names. -/
structure TypeDefs where
  globals : List (NameS × (List NameS × Ty))
  vars : List NameS
deriving Repr, Inhabited

mutual

/-- Type::substitute from src/par/types.rs.  Replaces Var(var) and
argumentless Name(var) by the given type; SendType/ReceiveType binders
shadow; errors on Name(var, args) with nonempty args. -/
def Ty.substitute : Ty → NameS → Ty → Except TypeError Ty
  | .primitive p, _, _ => .ok (.primitive p)
  | .chan t, v, typ => do .ok (.chan (← t.substitute v typ))
  | .var n, v, typ => if n = v then .ok typ else .ok (.var n)
  | .name n args, v, typ =>
    if n = v then
      if args.isEmpty then .ok typ
      else .error (.wrongNumberOfTypeArgs v 0 args.length)
    else do
      .ok (.name n (← substituteList args v typ))
  | .send t u, v, typ => do .ok (.send (← t.substitute v typ) (← u.substitute v typ))
  | .receive t u, v, typ => do .ok (.receive (← t.substitute v typ) (← u.substitute v typ))
  | .either bs, v, typ => do .ok (.either (← substituteBranches bs v typ))
  | .choice bs, v, typ => do .ok (.choice (← substituteBranches bs v typ))
  | .break_, _, _ => .ok .break_
  | .continue_, _, _ => .ok .continue_
  | .recursive asc l b, v, typ => do .ok (.recursive asc l (← b.substitute v typ))
  | .iterative asc l b, v, typ => do .ok (.iterative asc l (← b.substitute v typ))
  | .self_ l, _, _ => .ok (.self_ l)
  | .sendType n b, v, typ =>
    if n = v then .ok (.sendType n b)
    else do .ok (.sendType n (← b.substitute v typ))
  | .receiveType n b, v, typ =>
    if n = v then .ok (.receiveType n b)
    else do .ok (.receiveType n (← b.substitute v typ))

/-- Substitution threaded through the arguments of a named type. -/
def Ty.substituteList : List Ty → NameS → Ty → Except TypeError (List Ty)
  | [], _, _ => .ok []
  | t :: rest, v, typ => do .ok ((← t.substitute v typ) :: (← substituteList rest v typ))

/-- Substitution threaded through branch maps. -/
def Ty.substituteBranches :
    List (NameS × Ty) → NameS → Ty → Except TypeError (List (NameS × Ty))
  | [], _, _ => .ok []
  | (k, t) :: rest, v, typ => do
    .ok ((k, ← t.substitute v typ) :: (← substituteBranches rest v typ))

end

/-- Sequential substitution of type parameters by arguments, as done in
TypeDefs::get and TypeDefs::get_dual (a for-loop over the indices). -/
def substSeq : Ty → List NameS → List Ty → Except TypeError Ty
  | t, [], _ => .ok t
  | t, _, [] => .ok t
  | t, p :: ps, a :: rest => do substSeq (← t.substitute p a) ps rest

/-- Insert into an insertion-ordered set of plain names. -/
def vinsert (s : List NameS) (n : NameS) : List NameS :=
  if n ∈ s then s else s ++ [n]

/-- TypeDefs::get from src/par/types.rs: type variable names shadow globals
and take no arguments; globals are instantiated by sequential
substitution of their parameters. -/
def TypeDefs.get (td : TypeDefs) (n : NameS) (args : List Ty) : Except TypeError Ty :=
  if n ∈ td.vars then
    if args.isEmpty then .ok (.var n)
    else .error (.wrongNumberOfTypeArgs n 0 args.length)
  else
    match alookup td.globals n with
    | some (params, typ) =>
      if params.length ≠ args.length then
        .error (.wrongNumberOfTypeArgs n params.length args.length)
      else substSeq typ params args
    | none => .error (.typeNameNotDefined n)

mutual

/-- Type::chan_self from src/par/types.rs: conjugates occurrences of
Self with the given label by toggling a Chan wrapper, stopping at a
fixpoint binder with the same label. -/
def chanSelf (label : Option NameS) : Ty → Ty
  | .primitive p => .primitive p
  | .chan (.self_ l1) =>
    if l1 = label then .self_ l1 else .chan (.self_ l1)
  | .chan t => .chan (chanSelf label t)
  | .var n => .var n
  | .name n args => .name n (chanSelfArgs label args)
  | .send t u => .send (chanSelf label t) (chanSelf label u)
  | .receive t u => .receive (chanSelf label t) (chanSelf label u)
  | .either bs => .either (chanSelfBranches label bs)
  | .choice bs => .choice (chanSelfBranches label bs)
  | .break_ => .break_
  | .continue_ => .continue_
  | .recursive asc l1 b =>
    if l1 = label then .recursive asc l1 b else .recursive asc l1 (chanSelf label b)
  | .iterative asc l1 b =>
    if l1 = label then .iterative asc l1 b else .iterative asc l1 (chanSelf label b)
  | .self_ l1 =>
    if l1 = label then .chan (.self_ l1) else .self_ l1
  | .sendType n b => .sendType n (chanSelf label b)
  | .receiveType n b => .receiveType n (chanSelf label b)

def chanSelfArgs (label : Option NameS) : List Ty → List Ty
  | [] => []
  | t :: rest => chanSelf label t :: chanSelfArgs label rest

def chanSelfBranches (label : Option NameS) : List (NameS × Ty) → List (NameS × Ty)
  | [] => []
  | (k, t) :: rest => (k, chanSelf label t) :: chanSelfBranches label rest

end

mutual

/-- Type::dual from src/par/types.rs.  The Name case resolves through
TypeDefs::get_dual and falls back to a Chan wrapper when the lookup
fails.  Fuel is consumed exactly where the source recursion is not
structural (unfolding a definition body inside get_dual); none signals
fuel exhaustion, and the function itself never returns an error. -/
def Ty.dualF (td : TypeDefs) : Nat → Ty → Option Ty
  | _, .primitive p => some (.chan (.primitive p))
  | _, .chan t => some t
  | _, .var n => some (.chan (.var n))
  | fuel, .name g args =>
    match Ty.getDualF td fuel g args with
    | none => none
    | some (.ok d) => some d
    | some (.error _) => some (.chan (.name g args))
  | fuel, .send t u => (Ty.dualF td fuel u).map (fun du => .receive t du)
  | fuel, .receive t u => (Ty.dualF td fuel u).map (fun du => .send t du)
  | fuel, .either bs => (Ty.dualBranchesF td fuel bs).map .choice
  | fuel, .choice bs => (Ty.dualBranchesF td fuel bs).map .either
  | _, .break_ => some .continue_
  | _, .continue_ => some .break_
  | fuel, .recursive asc l b =>
    (Ty.dualF td fuel b).map (fun db => .iterative asc l (chanSelf l db))
  | fuel, .iterative asc l b =>
    (Ty.dualF td fuel b).map (fun db => .recursive asc l (chanSelf l db))
  | _, .self_ l => some (.chan (.self_ l))
  | fuel, .sendType g b => (Ty.dualF td fuel b).map (.receiveType g)
  | fuel, .receiveType g b => (Ty.dualF td fuel b).map (.sendType g)
termination_by fuel t => (fuel, sizeOf t)
decreasing_by
  all_goals simp_wf
  all_goals first
    | (apply Prod.Lex.left; omega)
    | (apply Prod.Lex.right; simp_arith)
    | (apply Prod.Lex.right; simp; omega)

/-- TypeDefs::get_dual from src/par/types.rs: dualize the definition
body, then substitute the arguments. -/
def Ty.getDualF (td : TypeDefs) : Nat → NameS → List Ty → Option (Except TypeError Ty)
  | fuel, g, args =>
    if g ∈ td.vars then
      some (if args.isEmpty then .ok (.chan (.var g))
            else .error (.wrongNumberOfTypeArgs g 0 args.length))
    else
      match alookup td.globals g with
      | some (params, typ) =>
        if params.length ≠ args.length then
          some (.error (.wrongNumberOfTypeArgs g params.length args.length))
        else
          match fuel with
          | 0 => none
          | m + 1 =>
            match Ty.dualF td m typ with
            | none => none
            | some d => some (substSeq d params args)
      | none => some (.error (.typeNameNotDefined g))
termination_by fuel g args => (fuel, 0)
decreasing_by
  all_goals simp_wf
  all_goals first
    | (apply Prod.Lex.left; omega)
    | (apply Prod.Lex.right; simp_arith)
    | (apply Prod.Lex.right; simp; omega)

def Ty.dualBranchesF (td : TypeDefs) : Nat → List (NameS × Ty) → Option (List (NameS × Ty))
  | _, [] => some []
  | fuel, (k, t) :: rest => do
    some ((k, ← Ty.dualF td fuel t) :: (← Ty.dualBranchesF td fuel rest))
termination_by fuel bs => (fuel, sizeOf bs)
decreasing_by
  all_goals simp_wf
  all_goals first
    | (apply Prod.Lex.left; omega)
    | (apply Prod.Lex.right; simp_arith)
    | (apply Prod.Lex.right; simp; omega)

end


mutual

/-- Type::expand_recursive_helper from src/par/types.rs: replace Self
with the given label by the whole Recursive binder (and conjugated
Self under a Chan by the dualized Iterative binder).  Fuel is consumed
only around the non-structural dual of the top body. -/
def expandRecH (td : TypeDefs) :
    Nat → List (Option NameS) → Option NameS → Ty → Ty → Option Ty
  | _, _, _, _, .primitive p => some (.primitive p)
  | fuel, ta, tl, tb, .chan (.self_ l) =>
    if l = tl then
      match fuel with
      | 0 => none
      | m + 1 => (Ty.dualF td m tb).map (fun db => .iterative ta l (chanSelf l db))
    else (expandRecH td fuel ta tl tb (.self_ l)).map .chan
  | fuel, ta, tl, tb, .chan t => (expandRecH td fuel ta tl tb t).map .chan
  | _, _, _, _, .var v => some (.var v)
  | fuel, ta, tl, tb, .name g args => (expandRecArgs td fuel ta tl tb args).map (.name g)
  | fuel, ta, tl, tb, .send t u => do
    some (.send (← expandRecH td fuel ta tl tb t) (← expandRecH td fuel ta tl tb u))
  | fuel, ta, tl, tb, .receive t u => do
    some (.receive (← expandRecH td fuel ta tl tb t) (← expandRecH td fuel ta tl tb u))
  | fuel, ta, tl, tb, .either bs => (expandRecBranches td fuel ta tl tb bs).map .either
  | fuel, ta, tl, tb, .choice bs => (expandRecBranches td fuel ta tl tb bs).map .choice
  | _, _, _, _, .break_ => some .break_
  | _, _, _, _, .continue_ => some .continue_
  | fuel, ta, tl, tb, .recursive asc l b =>
    if l = tl then some (.recursive asc l b)
    else (expandRecH td fuel ta tl tb b).map (.recursive asc l)
  | fuel, ta, tl, tb, .iterative asc l b =>
    (expandRecH td fuel ta tl tb b).map (.iterative asc l)
  | _, ta, tl, tb, .self_ l =>
    if l = tl then some (.recursive ta l tb) else some (.self_ l)
  | fuel, ta, tl, tb, .sendType v b => (expandRecH td fuel ta tl tb b).map (.sendType v)
  | fuel, ta, tl, tb, .receiveType v b => (expandRecH td fuel ta tl tb b).map (.receiveType v)
termination_by fuel ta tl tb t => (fuel, sizeOf t)
decreasing_by
  all_goals simp_wf
  all_goals first
    | (apply Prod.Lex.left; omega)
    | (apply Prod.Lex.right; simp_arith)
    | (apply Prod.Lex.right; simp; omega)

def expandRecArgs (td : TypeDefs) :
    Nat → List (Option NameS) → Option NameS → Ty → List Ty → Option (List Ty)
  | _, _, _, _, [] => some []
  | fuel, ta, tl, tb, t :: rest => do
    some ((← expandRecH td fuel ta tl tb t) :: (← expandRecArgs td fuel ta tl tb rest))
termination_by fuel ta tl tb args => (fuel, sizeOf args)
decreasing_by
  all_goals simp_wf
  all_goals first
    | (apply Prod.Lex.left; omega)
    | (apply Prod.Lex.right; simp_arith)
    | (apply Prod.Lex.right; simp; omega)

def expandRecBranches (td : TypeDefs) :
    Nat → List (Option NameS) → Option NameS → Ty → List (NameS × Ty) →
      Option (List (NameS × Ty))
  | _, _, _, _, [] => some []
  | fuel, ta, tl, tb, (k, t) :: rest => do
    some ((k, ← expandRecH td fuel ta tl tb t) :: (← expandRecBranches td fuel ta tl tb rest))
termination_by fuel ta tl tb bs => (fuel, sizeOf bs)
decreasing_by
  all_goals simp_wf
  all_goals first
    | (apply Prod.Lex.left; omega)
    | (apply Prod.Lex.right; simp_arith)
    | (apply Prod.Lex.right; simp; omega)

end

/-- Type::expand_recursive from src/par/types.rs. -/
def Ty.expandRecursiveF (td : TypeDefs) (fuel : Nat) (asc : List (Option NameS))
    (label : Option NameS) (body : Ty) : Option Ty :=
  expandRecH td fuel asc label body body

mutual

/-- Type::expand_iterative_helper from src/par/types.rs, symmetric to
the recursive expansion. -/
def expandItH (td : TypeDefs) :
    Nat → List (Option NameS) → Option NameS → Ty → Ty → Option Ty
  | _, _, _, _, .primitive p => some (.primitive p)
  | fuel, ta, tl, tb, .chan (.self_ l) =>
    if l = tl then
      match fuel with
      | 0 => none
      | m + 1 => (Ty.dualF td m tb).map (fun db => .recursive ta l (chanSelf l db))
    else (expandItH td fuel ta tl tb (.self_ l)).map .chan
  | fuel, ta, tl, tb, .chan t => (expandItH td fuel ta tl tb t).map .chan
  | _, _, _, _, .var v => some (.var v)
  | fuel, ta, tl, tb, .name g args => (expandItArgs td fuel ta tl tb args).map (.name g)
  | fuel, ta, tl, tb, .send t u => do
    some (.send (← expandItH td fuel ta tl tb t) (← expandItH td fuel ta tl tb u))
  | fuel, ta, tl, tb, .receive t u => do
    some (.receive (← expandItH td fuel ta tl tb t) (← expandItH td fuel ta tl tb u))
  | fuel, ta, tl, tb, .either bs => (expandItBranches td fuel ta tl tb bs).map .either
  | fuel, ta, tl, tb, .choice bs => (expandItBranches td fuel ta tl tb bs).map .choice
  | _, _, _, _, .break_ => some .break_
  | _, _, _, _, .continue_ => some .continue_
  | fuel, ta, tl, tb, .recursive asc l b =>
    (expandItH td fuel ta tl tb b).map (.recursive asc l)
  | fuel, ta, tl, tb, .iterative asc l b =>
    if l = tl then some (.iterative asc l b)
    else (expandItH td fuel ta tl tb b).map (.iterative asc l)
  | _, ta, tl, tb, .self_ l =>
    if l = tl then some (.iterative ta l tb) else some (.self_ l)
  | fuel, ta, tl, tb, .sendType v b => (expandItH td fuel ta tl tb b).map (.sendType v)
  | fuel, ta, tl, tb, .receiveType v b => (expandItH td fuel ta tl tb b).map (.receiveType v)
termination_by fuel ta tl tb t => (fuel, sizeOf t)
decreasing_by
  all_goals simp_wf
  all_goals first
    | (apply Prod.Lex.left; omega)
    | (apply Prod.Lex.right; simp_arith)
    | (apply Prod.Lex.right; simp; omega)

def expandItArgs (td : TypeDefs) :
    Nat → List (Option NameS) → Option NameS → Ty → List Ty → Option (List Ty)
  | _, _, _, _, [] => some []
  | fuel, ta, tl, tb, t :: rest => do
    some ((← expandItH td fuel ta tl tb t) :: (← expandItArgs td fuel ta tl tb rest))
termination_by fuel ta tl tb args => (fuel, sizeOf args)
decreasing_by
  all_goals simp_wf
  all_goals first
    | (apply Prod.Lex.left; omega)
    | (apply Prod.Lex.right; simp_arith)
    | (apply Prod.Lex.right; simp; omega)

def expandItBranches (td : TypeDefs) :
    Nat → List (Option NameS) → Option NameS → Ty → List (NameS × Ty) →
      Option (List (NameS × Ty))
  | _, _, _, _, [] => some []
  | fuel, ta, tl, tb, (k, t) :: rest => do
    some ((k, ← expandItH td fuel ta tl tb t) :: (← expandItBranches td fuel ta tl tb rest))
termination_by fuel ta tl tb bs => (fuel, sizeOf bs)
decreasing_by
  all_goals simp_wf
  all_goals first
    | (apply Prod.Lex.left; omega)
    | (apply Prod.Lex.right; simp_arith)
    | (apply Prod.Lex.right; simp; omega)

end

/-- Type::expand_iterative from src/par/types.rs. -/
def Ty.expandIterativeF (td : TypeDefs) (fuel : Nat) (asc : List (Option NameS))
    (label : Option NameS) (body : Ty) : Option Ty :=
  expandItH td fuel asc label body body

/-- Results of a fuelled fallible computation: none is fuel exhaustion,
some carries either a genuine TypeError or a value, exactly as the
Rust partial function either diverges or returns its Result. -/
abbrev OE (α : Type) := Option (Except TypeError α)

def OE.bindE {α β : Type} (x : OE α) (f : α → OE β) : OE β :=
  match x with
  | none => none
  | some (.error e) => some (.error e)
  | some (.ok a) => f a

def OE.pureE {α : Type} (a : α) : OE α := some (.ok a)

def OE.throwE {α : Type} (e : TypeError) : OE α := some (.error e)

def OE.ofExcept {α : Type} (x : Except TypeError α) : OE α := some x

def OE.ofOption {α : Type} (x : Option α) : OE α := x.map .ok

instance : Monad OE where
  pure := OE.pureE
  bind := OE.bindE

mutual

/-- Type::is_positive from src/par/types.rs. -/
def Ty.isPositiveF (td : TypeDefs) : Nat → Ty → OE Bool
  | 0, _ => none
  | _ + 1, .primitive _ => OE.pureE true
  | n + 1, .chan t => Ty.isNegativeF td n t
  | _ + 1, .var _ => OE.pureE false
  | n + 1, .name g args =>
    OE.bindE (OE.ofExcept (td.get g args)) (fun t => Ty.isPositiveF td n t)
  | n + 1, .send t u =>
    OE.bindE (Ty.isPositiveF td n t) (fun p =>
      if p then Ty.isPositiveF td n u else OE.pureE false)
  | _ + 1, .receive _ _ => OE.pureE false
  | n + 1, .either bs => Ty.allPositiveF td n bs
  | _ + 1, .choice _ => OE.pureE false
  | _ + 1, .break_ => OE.pureE true
  | _ + 1, .continue_ => OE.pureE false
  | n + 1, .recursive _ _ b => Ty.isPositiveF td n b
  | n + 1, .iterative _ _ b => Ty.isPositiveF td n b
  | _ + 1, .self_ _ => OE.pureE true
  | n + 1, .sendType v b =>
    OE.bindE (OE.ofExcept (b.substitute v (.var v))) (fun b1 => Ty.isPositiveF td n b1)
  | n + 1, .receiveType v b =>
    OE.bindE (OE.ofExcept (b.substitute v (.var v))) (fun b1 => Ty.isPositiveF td n b1)

/-- Type::is_negative from src/par/types.rs. -/
def Ty.isNegativeF (td : TypeDefs) : Nat → Ty → OE Bool
  | 0, _ => none
  | _ + 1, .primitive _ => OE.pureE true
  | n + 1, .chan t => Ty.isPositiveF td n t
  | _ + 1, .var _ => OE.pureE false
  | n + 1, .name g args =>
    OE.bindE (OE.ofExcept (td.get g args)) (fun t => Ty.isNegativeF td n t)
  | _ + 1, .send _ _ => OE.pureE false
  | n + 1, .receive t u =>
    OE.bindE (Ty.isPositiveF td n t) (fun p =>
      if p then Ty.isNegativeF td n u else OE.pureE false)
  | _ + 1, .either _ => OE.pureE false
  | n + 1, .choice bs => Ty.allNegativeF td n bs
  | _ + 1, .break_ => OE.pureE false
  | _ + 1, .continue_ => OE.pureE true
  | n + 1, .recursive _ _ b => Ty.isNegativeF td n b
  | n + 1, .iterative _ _ b => Ty.isNegativeF td n b
  | _ + 1, .self_ _ => OE.pureE true
  | n + 1, .sendType v b =>
    OE.bindE (OE.ofExcept (b.substitute v (.var v))) (fun b1 => Ty.isNegativeF td n b1)
  | n + 1, .receiveType v b =>
    OE.bindE (OE.ofExcept (b.substitute v (.var v))) (fun b1 => Ty.isNegativeF td n b1)

def Ty.allPositiveF (td : TypeDefs) : Nat → List (NameS × Ty) → OE Bool
  | 0, _ => none
  | _ + 1, [] => OE.pureE true
  | n + 1, (_, t) :: rest =>
    OE.bindE (Ty.isPositiveF td n t) (fun p =>
      if p then Ty.allPositiveF td n rest else OE.pureE false)

def Ty.allNegativeF (td : TypeDefs) : Nat → List (NameS × Ty) → OE Bool
  | 0, _ => none
  | _ + 1, [] => OE.pureE true
  | n + 1, (_, t) :: rest =>
    OE.bindE (Ty.isNegativeF td n t) (fun p =>
      if p then Ty.allNegativeF td n rest else OE.pureE false)

end

/-- Type::is_linear from src/par/types.rs: the negation of positivity. -/
def Ty.isLinearF (td : TypeDefs) (fuel : Nat) (t : Ty) : OE Bool :=
  OE.bindE (Ty.isPositiveF td fuel t) (fun p => OE.pureE (!p))

/-- Coinductive assumption set of label pairs used by assignability. -/
abbrev IndSet := List (Option NameS × Option NameS)

/-- The value found by an association-list lookup is smaller than the
list, for the termination of the assignability loops. -/
theorem alookup_sizeOf :
    ∀ (bs : List (NameS × Ty)) (k : NameS) (v : Ty),
      alookup bs k = some v → sizeOf v < sizeOf bs := by
  intro bs
  induction bs with
  | nil => intro k v h; simp [alookup] at h
  | cons q rest ih =>
    obtain ⟨k1, t⟩ := q
    intro k v h
    simp only [alookup] at h
    by_cases hk : k1 = k
    · simp [hk] at h
      subst h
      simp
      omega
    · simp [hk] at h
      have := ih k v h
      simp
      omega

/-- HashSet::insert on the assumption set. -/
def pinsert (s : IndSet) (p : Option NameS × Option NameS) : IndSet :=
  if p ∈ s then s else s ++ [p]

mutual

/-- Type::is_assignable_to from src/par/types.rs, with the match arms
in the source order.  Fuel is consumed exactly at the points where the
source recursion is not structural: dualizing a side, resolving a
named type, expanding a fixpoint, and substituting a quantifier body.
Note the source has no arm for a pair of Primitive types, so that pair
falls through to the catch-all and yields false. -/
def Ty.assignF (td : TypeDefs) (fuel : Nat) : Ty → Ty → IndSet → OE Bool
  | t1, t2, ind =>
    match t1, t2 with
    | .chan d1, .chan d2 => Ty.assignF td fuel d2 d1 ind
    | .chan d1, u2 =>
      (match fuel with
       | 0 => none
       | m + 1 =>
         match Ty.dualF td m u2 with
         | none => none
         | some (.chan _) => OE.pureE false
         | some d2 => Ty.assignF td m d2 d1 ind)
    | u1, .chan d2 =>
      (match fuel with
       | 0 => none
       | m + 1 =>
         match Ty.dualF td m u1 with
         | none => none
         | some (.chan _) => OE.pureE false
         | some d1 => Ty.assignF td m d2 d1 ind)
    | .var a, .var b => OE.pureE (a = b)
    | .name g args, u2 =>
      (match fuel with
       | 0 => none
       | m + 1 =>
         OE.bindE (OE.ofExcept (td.get g args)) (fun r => Ty.assignF td m r u2 ind))
    | u1, .name g args =>
      (match fuel with
       | 0 => none
       | m + 1 =>
         OE.bindE (OE.ofExcept (td.get g args)) (fun r => Ty.assignF td m u1 r ind))
    | .send a1 b1, .send a2 b2 =>
      OE.bindE (Ty.assignF td fuel a1 a2 ind) (fun p =>
        if p then Ty.assignF td fuel b1 b2 ind else OE.pureE false)
    | .receive a1 b1, .receive a2 b2 =>
      OE.bindE (Ty.assignF td fuel a2 a1 ind) (fun p =>
        if p then Ty.assignF td fuel b1 b2 ind else OE.pureE false)
    | .either bs1, .either bs2 =>
      OE.bindE (Ty.assignEitherF td fuel bs1 bs2 ind) (fun p =>
        OE.pureE (p && bs2.all (fun q => (alookup bs1 q.1).isSome)))
    | .choice bs1, .choice bs2 =>
      if bs1.all (fun q => (alookup bs2 q.1).isSome) then
        Ty.assignChoiceF td fuel bs1 bs2 ind
      else OE.pureE false
    | .break_, .break_ => OE.pureE true
    | .continue_, .continue_ => OE.pureE true
    | .recursive asc1 l1 b1, .recursive asc2 l2 b2 =>
      if asc2.all (fun l => l ∈ asc1) then
        Ty.assignF td fuel b1 b2 (pinsert ind (l1, l2))
      else OE.pureE false
    | u1, .recursive asc l b =>
      (match fuel with
       | 0 => none
       | m + 1 =>
         match Ty.expandRecursiveF td m asc l b with
         | none => none
         | some ex => Ty.assignF td m u1 ex ind)
    | .iterative asc1 l1 b1, .iterative asc2 l2 b2 =>
      if asc2.all (fun l => l ∈ asc1) then
        Ty.assignF td fuel b1 b2 (pinsert ind (l1, l2))
      else OE.pureE false
    | .iterative asc l b, u2 =>
      (match fuel with
       | 0 => none
       | m + 1 =>
         match Ty.expandIterativeF td m asc l b with
         | none => none
         | some ex => Ty.assignF td m ex u2 ind)
    | .self_ l1, .self_ l2 => OE.pureE ((l1, l2) ∈ ind)
    | .sendType v1 b1, .sendType v2 b2 =>
      (match fuel with
       | 0 => none
       | m + 1 =>
         OE.bindE (OE.ofExcept (b2.substitute v2 (.var v1))) (fun b2s =>
           Ty.assignF { td with vars := vinsert td.vars v1 } m b1 b2s ind))
    | .receiveType v1 b1, .receiveType v2 b2 =>
      (match fuel with
       | 0 => none
       | m + 1 =>
         OE.bindE (OE.ofExcept (b2.substitute v2 (.var v1))) (fun b2s =>
           Ty.assignF { td with vars := vinsert td.vars v1 } m b1 b2s ind))
    | _, _ => OE.pureE false
termination_by t1 t2 ind => (fuel, sizeOf t1 + sizeOf t2)
decreasing_by
  all_goals simp_wf
  all_goals first
    | (apply Prod.Lex.left; omega)
    | (apply Prod.Lex.right; simp_arith)
    | (apply Prod.Lex.right; simp; omega)

/-- First loop of the Either arm: every branch of the left map must be
present in the right map and pointwise assignable. -/
def Ty.assignEitherF (td : TypeDefs) (fuel : Nat) :
    List (NameS × Ty) → List (NameS × Ty) → IndSet → OE Bool
  | [], _, _ => OE.pureE true
  | (k, u1) :: rest, bs2, ind =>
    match halk : alookup bs2 k with
    | none => OE.pureE false
    | some u2 =>
      OE.bindE (Ty.assignF td fuel u1 u2 ind) (fun p =>
        if p then Ty.assignEitherF td fuel rest bs2 ind else OE.pureE false)
termination_by bs1 bs2 ind => (fuel, sizeOf bs1 + sizeOf bs2)
decreasing_by
  all_goals simp_wf
  all_goals apply Prod.Lex.right
  all_goals have hs := alookup_sizeOf _ _ _ halk
  all_goals omega

/-- Second loop of the Choice arm: every branch of the right map must
be present in the left map and pointwise assignable. -/
def Ty.assignChoiceF (td : TypeDefs) (fuel : Nat) :
    List (NameS × Ty) → List (NameS × Ty) → IndSet → OE Bool
  | _, [], _ => OE.pureE true
  | bs1, (k, u2) :: rest, ind =>
    match halk : alookup bs1 k with
    | none => OE.pureE false
    | some u1 =>
      OE.bindE (Ty.assignF td fuel u1 u2 ind) (fun p =>
        if p then Ty.assignChoiceF td fuel bs1 rest ind else OE.pureE false)
termination_by bs1 bs2 ind => (fuel, sizeOf bs1 + sizeOf bs2)
decreasing_by
  all_goals simp_wf
  all_goals apply Prod.Lex.right
  all_goals have hs := alookup_sizeOf _ _ _ halk
  all_goals omega

end

/-- Type::check_assignable from src/par/types.rs: assignability with
an empty assumption set, turning false into CannotAssignFromTo. -/
def Ty.checkAssignableF (td : TypeDefs) (fuel : Nat) (t : Ty) (u : Ty) : OE Unit :=
  OE.bindE (Ty.assignF td fuel t u []) (fun p =>
    if p then OE.pureE () else OE.throwE (.cannotAssignFromTo t u))

mutual

/-- TypeDefs::validate_type from src/par/types.rs.  deps is the set of
names already unfolded along the current path; self_pos and self_neg
track fixpoint labels in positive and negative position.  Note the
Recursive/Iterative case passes deps through unchanged. -/
def validateTypeF (td : TypeDefs) :
    Nat → Ty → List NameS → List (Option NameS) → List (Option NameS) → OE Unit
  | 0, _, _, _, _ => none
  | _ + 1, .primitive _, _, _, _ => OE.pureE ()
  | n + 1, .chan t, deps, sp, sn => validateTypeF td n t deps sn sp
  | _ + 1, .var v, _, _, _ =>
    OE.bindE (OE.ofExcept (td.get v [])) (fun _ => OE.pureE ())
  | n + 1, .name g args, deps, sp, sn =>
    if g ∉ td.vars ∧ g ∈ deps then
      OE.throwE (.dependencyCycle (deps.dropWhile (fun d => d ≠ g)))
    else
      let deps1 := if g ∈ td.vars then deps else deps ++ [g]
      OE.bindE (OE.ofExcept (td.get g args)) (fun t =>
        validateTypeF td n t deps1 sp sn)
  | n + 1, .send t u, deps, sp, sn =>
    OE.bindE (validateTypeF td n t deps sp sn) (fun _ =>
      validateTypeF td n u deps sp sn)
  | n + 1, .receive t u, deps, sp, sn =>
    OE.bindE (validateTypeF td n t deps sn sp) (fun _ =>
      validateTypeF td n u deps sp sn)
  | n + 1, .either bs, deps, sp, sn => validateBranchesF td n bs deps sp sn
  | n + 1, .choice bs, deps, sp, sn => validateBranchesF td n bs deps sp sn
  | _ + 1, .break_, _, _, _ => OE.pureE ()
  | _ + 1, .continue_, _, _, _ => OE.pureE ()
  | n + 1, .recursive _ l b, deps, sp, sn =>
    validateTypeF td n b deps (sinsert sp l) (sremove sn l)
  | n + 1, .iterative _ l b, deps, sp, sn =>
    validateTypeF td n b deps (sinsert sp l) (sremove sn l)
  | _ + 1, .self_ l, _, sp, sn =>
    if l ∈ sn then OE.throwE (.selfUsedInNegativePosition l)
    else if l ∉ sp then OE.throwE (.noMatchingRecursiveOrIterative l)
    else OE.pureE ()
  | n + 1, .sendType v b, deps, sp, sn =>
    validateTypeF { td with vars := vinsert td.vars v } n b deps sp sn
  | n + 1, .receiveType v b, deps, sp, sn =>
    validateTypeF { td with vars := vinsert td.vars v } n b deps sp sn

def validateBranchesF (td : TypeDefs) :
    Nat → List (NameS × Ty) → List NameS → List (Option NameS) → List (Option NameS) →
      OE Unit
  | 0, _, _, _, _ => none
  | _ + 1, [], _, _, _ => OE.pureE ()
  | n + 1, (_, t) :: rest, deps, sp, sn =>
    OE.bindE (validateTypeF td n t deps sp sn) (fun _ =>
      validateBranchesF td n rest deps sp sn)

end

/-- Duplicate-name accumulation loop of TypeDefs::new_with_validation. -/
def buildGlobals :
    List (NameS × (List NameS × Ty)) → List (NameS × (List NameS × Ty)) →
      Except TypeError (List (NameS × (List NameS × Ty)))
  | acc, [] => .ok acc
  | acc, (g, d) :: rest =>
    match alookup acc g with
    | some _ => .error (.typeNameAlreadyDefined g)
    | none => buildGlobals (ainsert acc g d) rest

/-- Per-definition validation loop of TypeDefs::new_with_validation:
each body is validated with the definition name as the initial deps
and its parameters installed as type variable names. -/
def validateAllF (td : TypeDefs) :
    Nat → List (NameS × (List NameS × Ty)) → OE Unit
  | _, [] => OE.pureE ()
  | fuel, (g, (params, typ)) :: rest =>
    let tdv := { td with vars := params.foldl vinsert td.vars }
    OE.bindE (validateTypeF tdv fuel typ [g] [] []) (fun _ =>
      validateAllF td fuel rest)

/-- TypeDefs::new_with_validation from src/par/types.rs. -/
def TypeDefs.newWithValidationF (fuel : Nat)
    (globals : List (NameS × (List NameS × Ty))) : OE TypeDefs :=
  OE.bindE (OE.ofExcept (buildGlobals [] globals)) (fun gm =>
    let td : TypeDefs := { globals := gm, vars := [] }
    OE.bindE (validateAllF td fuel gm) (fun _ => OE.pureE td))

mutual

/-- Type::invalidate_ascendent from src/par/types.rs: remove the label
from every ascendant set in the type. -/
def Ty.invalidateAscendent (label : Option NameS) : Ty → Ty
  | .primitive p => .primitive p
  | .var n => .var n
  | .name g args => .name g (Ty.invalidateAscArgs label args)
  | .send t u => .send (Ty.invalidateAscendent label t) (Ty.invalidateAscendent label u)
  | .receive t u => .receive (Ty.invalidateAscendent label t) (Ty.invalidateAscendent label u)
  | .either bs => .either (Ty.invalidateAscBranches label bs)
  | .choice bs => .choice (Ty.invalidateAscBranches label bs)
  | .break_ => .break_
  | .continue_ => .continue_
  | .recursive asc l b => .recursive (sremove asc label) l (Ty.invalidateAscendent label b)
  | .iterative asc l b => .iterative (sremove asc label) l (Ty.invalidateAscendent label b)
  | .self_ l => .self_ l
  | .sendType v b => .sendType v (Ty.invalidateAscendent label b)
  | .receiveType v b => .receiveType v (Ty.invalidateAscendent label b)
  | .chan t => .chan (Ty.invalidateAscendent label t)

def Ty.invalidateAscArgs (label : Option NameS) : List Ty → List Ty
  | [] => []
  | t :: rest => Ty.invalidateAscendent label t :: Ty.invalidateAscArgs label rest

def Ty.invalidateAscBranches (label : Option NameS) : List (NameS × Ty) → List (NameS × Ty)
  | [] => []
  | (k, t) :: rest => (k, Ty.invalidateAscendent label t) :: Ty.invalidateAscBranches label rest

end

/-! The desugared process calculus.  Its module (src/par/process.rs) is
not part of the provided sources; only its callers are.  The data
model below is reconstructed from the specification (section 3,
"Desugared calculus") and from the exhaustive pattern matches and
constructions in src/par/types.rs, which fix every constructor and
field. -/

/-- Modelled from the spec: process::Captures, the set of free names a
fork or begin captures (an insertion-ordered map from names to spans;
spans are dropped). -/
structure Captures where
  names : List NameS
deriving Repr, DecidableEq

/-- Modelled from the spec: the primitive-value module is absent from
the sources; the only primitive type in src/par/types.rs is Int, so a
primitive value is an integer literal. -/
inductive PrimVal where
  | int (n : Int)
deriving Repr, DecidableEq

/-- Primitive::get_type as used by src/par/types.rs: an integer
literal has the primitive type Int. -/
def PrimVal.getType : PrimVal → Ty
  | .int _ => .primitive .int

mutual

/-- Modelled from the spec: process::Expression, generic over the type
annotation (Unit before checking, Ty after). -/
inductive Expr (β : Type) where
  | reference (n : NameS) (t : β)
  | fork (captures : Captures) (chanName : NameS) (chanAnnot : Option Ty)
      (chanType : β) (exprType : β) (process : Proc β)
  | primitive (v : PrimVal) (t : β)

/-- Modelled from the spec: process::Process. -/
inductive Proc (β : Type) where
  | letP (n : NameS) (annot : Option Ty) (typ : β) (value : Expr β) (then_ : Proc β)
  | doP (n : NameS) (typ : β) (command : Cmd β)
  | telltypes (p : Proc β)

/-- Modelled from the spec: process::Command. -/
inductive Cmd (β : Type) where
  | link (e : Expr β)
  | send (e : Expr β) (k : Proc β)
  | receive (param : NameS) (annot : Option Ty) (paramType : β) (k : Proc β)
  | choose (label : NameS) (k : Proc β)
  | matchC (branches : List NameS) (processes : List (Proc β))
  | break_
  | continue_ (k : Proc β)
  | begin (unfounded : Bool) (label : Option NameS) (captures : Captures) (body : Proc β)
  | loop (label : Option NameS) (captures : Captures)
  | sendType (t : Ty) (k : Proc β)
  | receiveType (param : NameS) (k : Proc β)

end

/-- Is the command a Link?  Guard of the Iterative unfolding prelude in
Context::check_command. -/
def Cmd.isLink {β : Type} : Cmd β → Bool
  | .link _ => true
  | _ => false

/-- Is the command a Begin or Loop?  Guard of the Recursive unfolding
prelude in Context::check_command. -/
def Cmd.isBeginOrLoop {β : Type} : Cmd β → Bool
  | .begin _ _ _ _ => true
  | .loop _ _ => true
  | _ => false

/-- A cached checked definition (Context::checked_definitions entry). -/
structure CheckedDef where
  defE : Expr Ty
  typ : Ty

/-- The shared cache behind the RwLock in Context: it is shared by all
clones and splits of a checker context, so it is threaded as global
state rather than stored in the context. -/
abbrev Cache := List (NameS × CheckedDef)

/-- The cloneable part of types.rs Context. -/
structure Ctx where
  typeDefs : TypeDefs
  declarations : List (NameS × Ty)
  uncheckedDefinitions : List (NameS × Expr Unit)
  currentDeps : List NameS
  varMap : List (NameS × Ty)
  loopPoints : List (Option NameS × (NameS × List (NameS × Ty)))

/-- The checker monad: the shared cache as state over fuel-aware
fallible results. -/
abbrev M (α : Type) : Type := Cache → OE (α × Cache)

def M.pureM {α : Type} (a : α) : M α := fun s => OE.pureE (a, s)

def M.bindM {α β : Type} (x : M α) (f : α → M β) : M β :=
  fun s => OE.bindE (x s) (fun p => f p.1 p.2)

instance : Monad M where
  pure := M.pureM
  bind := M.bindM

/-- Fuel exhaustion inside the checker. -/
def M.out {α : Type} : M α := fun _ => none

/-- A genuine type error inside the checker. -/
def M.fail {α : Type} (e : TypeError) : M α := fun _ => OE.throwE e

def M.liftOE {α : Type} (x : OE α) : M α :=
  fun s => OE.bindE x (fun a => OE.pureE (a, s))

def M.getCache : M Cache := fun s => OE.pureE (s, s)

def M.setCache (c : Cache) : M Unit := fun _ => OE.pureE ((), c)

/-- Context::get_variable: shift-remove a variable binding. -/
def Ctx.getVariable (ctx : Ctx) (n : NameS) : Option Ty × Ctx :=
  match alookup ctx.varMap n with
  | some t => (some t, { ctx with varMap := aremove ctx.varMap n })
  | none => (none, ctx)

/-- Context::put from src/par/types.rs: shadowing an existing linear
binding is an error; otherwise insert (replacing in place). -/
def Ctx.putF (fuel : Nat) (ctx : Ctx) (n : NameS) (typ : Ty) : OE Ctx :=
  match alookup ctx.varMap n with
  | some told =>
    OE.bindE (Ty.isLinearF ctx.typeDefs fuel told) (fun lin =>
      if lin then OE.throwE (.shadowedObligation n)
      else OE.pureE { ctx with varMap := ainsert ctx.varMap n typ })
  | none => OE.pureE { ctx with varMap := ainsert ctx.varMap n typ }

/-- Context::invalidate_ascendent: invalidate in every variable type. -/
def Ctx.invalidateAscendent (ctx : Ctx) (label : Option NameS) : Ctx :=
  { ctx with
    varMap := ctx.varMap.map (fun q => (q.1, Ty.invalidateAscendent label q.2)) }

/-- Obligation collection loop of Context::obligations: varMap whose
type is linear (or whose linearity check errs). -/
def obligationsGo (td : TypeDefs) (fuel : Nat) : List (NameS × Ty) → Option (List NameS)
  | [] => some []
  | (n, t) :: rest =>
    match Ty.isLinearF td fuel t with
    | none => none
    | some r =>
      (obligationsGo td fuel rest).map (fun l =>
        if (match r with | .ok b => b | .error _ => true) then n :: l else l)

/-- Context::obligations from src/par/types.rs. -/
def Ctx.obligationsF (fuel : Nat) (ctx : Ctx) : Option (List NameS) :=
  obligationsGo ctx.typeDefs fuel ctx.varMap

/-- Context::cannot_have_obligations from src/par/types.rs. -/
def Ctx.cannotHaveObligationsF (fuel : Nat) (ctx : Ctx) : OE Unit :=
  match ctx.obligationsF fuel with
  | none => none
  | some [] => OE.pureE ()
  | some l => OE.throwE (.unfulfilledObligations l)

/-- Context::split from src/par/types.rs: clear the local varMap,
keep everything else (the checked-definition cache is shared). -/
def Ctx.split (ctx : Ctx) : Ctx := { ctx with varMap := [] }

/-- Loop body of Context::capture: move captured varMap to the
target context, re-inserting nonlinear ones into the source. -/
def captureGo (fuel : Nat) (subject : Option NameS) :
    List NameS → Ctx → Ctx → OE (Ctx × Ctx)
  | [], self, target => OE.pureE (self, target)
  | n :: rest, self, target =>
    if subject = some n then OE.throwE (.typeMustBeKnownAtThisPoint n)
    else
      match self.getVariable n with
      | (none, self1) => captureGo fuel subject rest self1 target
      | (some typ, self1) =>
        OE.bindE (Ty.isLinearF self1.typeDefs fuel typ) (fun lin =>
          OE.bindE (if !lin then Ctx.putF fuel self1 n typ else OE.pureE self1)
            (fun self2 =>
              OE.bindE (Ctx.putF fuel target n typ) (fun target1 =>
                captureGo fuel subject rest self2 target1)))

/-- Context::capture from src/par/types.rs. -/
def Ctx.captureF (fuel : Nat) (subject : Option NameS) (cap : Captures)
    (self target : Ctx) : OE (Ctx × Ctx) :=
  captureGo fuel subject cap.names self target

/-- The loop-variable check in the Loop arm of Context::check_command:
each variable of the begin-time snapshot must still be present with an
assignable type; the inference subject is skipped and reports its
snapshot type. -/
def loopVarsF (fuel : Nat) (subject : Option NameS) :
    List (NameS × Ty) → Ctx → Option Ty → OE (Option Ty × Ctx)
  | [], ctx, acc => OE.pureE (acc, ctx)
  | (v, atBegin) :: rest, ctx, acc =>
    if subject = some v then loopVarsF fuel subject rest ctx (some atBegin)
    else
      match ctx.getVariable v with
      | (none, _) => OE.throwE (.loopVariableNotPreserved v)
      | (some cur, ctx1) =>
        OE.bindE (Ty.assignF ctx1.typeDefs fuel cur atBegin []) (fun p =>
          if p then loopVarsF fuel subject rest ctx1 acc
          else OE.throwE (.loopVariableChangedType v cur atBegin))

/-- The loop-variable check in the Loop arm of Context::infer_command
(no subject skipping). -/
def inferLoopVarsF (fuel : Nat) :
    List (NameS × Ty) → Ctx → OE Ctx
  | [], ctx => OE.pureE ctx
  | (v, atBegin) :: rest, ctx =>
    match ctx.getVariable v with
    | (none, _) => OE.throwE (.loopVariableNotPreserved v)
    | (some cur, ctx1) =>
      OE.bindE (Ty.assignF ctx1.typeDefs fuel cur atBegin []) (fun p =>
        if p then inferLoopVarsF fuel rest ctx1
        else OE.throwE (.loopVariableChangedType v cur atBegin))

/-- The callback type of Context::check_command's analyze_process
parameter: takes the context and a process, returns the typed process,
an optionally inferred type, and the evolved context. -/
abbrev Analyze : Type := Ctx → Proc Unit → M (Proc Ty × Option Ty × Ctx)

/-- The branch loop of the Match arm of Context::check_command: each
branch restarts from a clone of the original context, the object is
re-bound at the branch type, and branch result types are unified. -/
def matchLoopF (fuel : Nat) (orig : Ctx) (obj : NameS)
    (req : List (NameS × Ty)) (typFull : Ty) (f : Analyze) :
    List NameS → List (Proc Unit) → List (Proc Ty) → Option Ty → Ctx →
      M (List (Proc Ty) × Option Ty × Ctx)
  | [], _, acc, inferred, cur => pure (acc, inferred, cur)
  | _, [], acc, inferred, cur => pure (acc, inferred, cur)
  | b :: bs, p :: ps, acc, inferred, _ => do
    let c0 := orig
    match alookup req b with
    | none => M.fail (.redundantBranch b typFull)
    | some bt => do
      let c1 ← M.liftOE (Ctx.putF fuel c0 obj bt)
      let (p1, infBranch, c2) ← f c1 p
      let inferred1 ←
        match inferred, infBranch with
        | none, some t2 => pure (some t2)
        | some t1, some t2 => do
          let a1 ← M.liftOE (Ty.assignF c2.typeDefs fuel t1 t2 [])
          if a1 then pure (some t2)
          else do
            let a2 ← M.liftOE (Ty.assignF c2.typeDefs fuel t2 t1 [])
            if !a2 then M.fail (.typesCannotBeUnified t1 t2)
            else pure (some t1)
        | t1, none => pure t1
      matchLoopF fuel orig obj req typFull f bs ps (acc ++ [p1]) inferred1 c2

/-- The branch loop of the Match arm of Context::infer_command. -/
def inferMatchAccum (branchTypes : List (NameS × Ty)) (b : NameS) (t : Ty) :
    List (NameS × Ty) :=
  ainsert branchTypes b t

mutual

/-- Context::check_definition from src/par/types.rs: cached; detects
definition cycles through current_deps; checks against a declaration
when present, otherwise infers. -/
def checkDefinitionF : Nat → Ctx → NameS → M (Ty × Ctx)
  | 0, _, _ => M.out
  | n + 1, ctx, nm => do
    let cache ← M.getCache
    match alookup cache nm with
    | some cd => pure (cd.typ, ctx)
    | none =>
      match alookup ctx.uncheckedDefinitions nm with
      | none => M.fail (.nameNotDefined nm)
      | some unchecked =>
        if nm ∈ ctx.currentDeps then
          M.fail (.dependencyCycle (ctx.currentDeps.dropWhile (fun d => d ≠ nm)))
        else do
          let ctx1 := { ctx with currentDeps := ctx.currentDeps ++ [nm] }
          let (checkedDef, checkedType, ctx2) ←
            match alookup ctx1.declarations nm with
            | some declared => do
              let (d, c) ← checkExpressionF n none ctx1 unchecked declared
              pure (d, declared, c)
            | none => do
              let (d, t, c) ← inferExpressionF n none ctx1 unchecked
              pure (d, t, c)
          let cache1 ← M.getCache
          M.setCache (ainsert cache1 nm ⟨checkedDef, checkedType⟩)
          pure (checkedType, ctx2)

/-- Context::get from src/par/types.rs: a local variable, else a
global definition. -/
def ctxGetF : Nat → Ctx → NameS → M (Ty × Ctx)
  | 0, _, _ => M.out
  | n + 1, ctx, nm =>
    match ctx.getVariable nm with
    | (some typ, ctx1) => pure (typ, ctx1)
    | (none, ctx1) => checkDefinitionF n ctx1 nm

/-- Context::check_process from src/par/types.rs. -/
def checkProcessF : Nat → Ctx → Proc Unit → M (Proc Ty × Ctx)
  | 0, _, _ => M.out
  | n + 1, ctx, .letP nm annot _ value then_ => do
    let (value1, typ, ctx1) ←
      match annot with
      | some annotated => do
        let (e, c) ← checkExpressionF n none ctx value annotated
        pure (e, annotated, c)
      | none => inferExpressionF n none ctx value
    let ctx2 ← M.liftOE (Ctx.putF n ctx1 nm typ)
    let (then1, ctx3) ← checkProcessF n ctx2 then_
    pure (.letP nm annot typ value1 then1, ctx3)
  | n + 1, ctx, .doP obj _ cmd => do
    let (typ, ctx1) ← ctxGetF n ctx obj
    let (cmd1, _, ctx2) ← checkCommandF n none ctx1 obj typ cmd
      (fun c p => do
        let (p1, c1) ← checkProcessF n c p
        pure (p1, none, c1))
    pure (.doP obj typ cmd1, ctx2)
  | _ + 1, ctx, .telltypes _ => M.fail (.telltypes ctx.varMap)

/-- The unfolding prelude of Context::check_command from
src/par/types.rs: resolve Name always; expand Iterative unless the
command is a Link; expand Recursive unless the command is a Begin or
Loop; resolve a Chan whose dual is not itself a Chan. -/
def checkCommandF : Nat → Option NameS → Ctx → NameS → Ty → Cmd Unit → Analyze →
    M (Cmd Ty × Option Ty × Ctx)
  | 0, _, _, _, _, _, _ => M.out
  | n + 1, subj, ctx, obj, typ, cmd, f =>
    match typ with
    | .name g args => do
      let t ← M.liftOE (OE.ofExcept (ctx.typeDefs.get g args))
      checkCommandF n subj ctx obj t cmd f
    | .iterative asc l b =>
      if cmd.isLink then checkCommandArmsF n subj ctx obj (.iterative asc l b) cmd f
      else do
        let ex ← M.liftOE (OE.ofOption (Ty.expandIterativeF ctx.typeDefs n asc l b))
        checkCommandF n subj ctx obj ex cmd f
    | .recursive asc l b =>
      if cmd.isBeginOrLoop then
        checkCommandArmsF n subj ctx obj (.recursive asc l b) cmd f
      else do
        let ex ← M.liftOE (OE.ofOption (Ty.expandRecursiveF ctx.typeDefs n asc l b))
        checkCommandF n subj ctx obj ex cmd f
    | .chan d => do
      let dd ← M.liftOE (OE.ofOption (Ty.dualF ctx.typeDefs n d))
      match dd with
      | .chan _ => checkCommandArmsF n subj ctx obj (.chan d) cmd f
      | t => checkCommandF n subj ctx obj t cmd f
    | t => checkCommandArmsF n subj ctx obj t cmd f

/-- The per-command arms of Context::check_command from
src/par/types.rs, reached when no unfolding step applies. -/
def checkCommandArmsF : Nat → Option NameS → Ctx → NameS → Ty → Cmd Unit → Analyze →
    M (Cmd Ty × Option Ty × Ctx)
  | 0, _, _, _, _, _, _ => M.out
  | n + 1, subj, ctx, obj, typ, cmd, f =>
    match cmd with
    | .link e => do
      let d ← M.liftOE (OE.ofOption (Ty.dualF ctx.typeDefs n typ))
      let (e1, ctx1) ← checkExpressionF n none ctx e d
      let _ ← M.liftOE (Ctx.cannotHaveObligationsF n ctx1)
      pure (.link e1, none, ctx1)
    | .send arg k =>
      match typ with
      | .receive argT thenT => do
        let (arg1, ctx1) ← checkExpressionF n none ctx arg argT
        let ctx2 ← M.liftOE (Ctx.putF n ctx1 obj thenT)
        let (k1, inferred, ctx3) ← f ctx2 k
        pure (.send arg1 k1, inferred, ctx3)
      | _ => M.fail (.invalidOperation typ)
    | .receive param annot _ k =>
      match typ with
      | .send paramT thenT => do
        let _ ← match annot with
          | some annotated =>
            M.liftOE (Ty.checkAssignableF ctx.typeDefs n paramT annotated)
          | none => pure ()
        let ctx1 ← M.liftOE (Ctx.putF n ctx param paramT)
        let ctx2 ← M.liftOE (Ctx.putF n ctx1 obj thenT)
        let (k1, inferred, ctx3) ← f ctx2 k
        pure (.receive param annot paramT k1, inferred, ctx3)
      | _ => M.fail (.invalidOperation typ)
    | .choose chosen k =>
      match typ with
      | .choice branches =>
        match alookup branches chosen with
        | none => M.fail (.invalidBranch chosen typ)
        | some branchT => do
          let ctx1 ← M.liftOE (Ctx.putF n ctx obj branchT)
          let (k1, inferred, ctx2) ← f ctx1 k
          pure (.choose chosen k1, inferred, ctx2)
      | _ => M.fail (.invalidOperation typ)
    | .matchC branches processes =>
      match typ with
      | .either required =>
        match required.find? (fun q => !(branches.contains q.1)) with
        | some q => M.fail (.missingBranch q.1 typ)
        | none => do
          let (typed, inferred, ctx1) ←
            matchLoopF n ctx obj required typ f branches processes [] none ctx
          pure (.matchC branches typed, inferred, ctx1)
      | _ => M.fail (.invalidOperation typ)
    | .break_ =>
      match typ with
      | .continue_ => do
        let _ ← M.liftOE (Ctx.cannotHaveObligationsF n ctx)
        pure (.break_, none, ctx)
      | _ => M.fail (.invalidOperation typ)
    | .continue_ k =>
      match typ with
      | .break_ => do
        let (k1, inferred, ctx1) ← f ctx k
        pure (.continue_ k1, inferred, ctx1)
      | _ => M.fail (.invalidOperation typ)
    | .begin unfounded label caps body =>
      match typ with
      | .recursive tAsc tLabel tBody => do
        let typAsc := if unfounded then tAsc else sinsert tAsc label
        let ctx1 := ctx.invalidateAscendent label
        let snapshot :=
          ainsert (ctx1.varMap.filter (fun q => q.1 ∈ caps.names)) obj
            (.recursive typAsc tLabel tBody)
        let ctx2 := { ctx1 with loopPoints := oinsert ctx1.loopPoints label (obj, snapshot) }
        let ex ← M.liftOE (OE.ofOption (Ty.expandRecursiveF ctx2.typeDefs n typAsc tLabel tBody))
        let ctx3 ← M.liftOE (Ctx.putF n ctx2 obj ex)
        let (body1, inferred, ctx4) ← f ctx3 body
        let inferredIter := inferred.map (fun b => Ty.iterative typAsc label b)
        pure (.begin unfounded label caps body1, inferredIter, ctx4)
      | _ => M.fail (.invalidOperation typ)
    | .loop label caps =>
      match typ with
      | .recursive asc1 l1 b1 =>
        match olookup ctx.loopPoints label with
        | none => M.fail (.noSuchLoopPoint label)
        | some (driver, snapshotVars) => do
          let ctx1 ← M.liftOE (Ctx.putF n ctx driver (.recursive asc1 l1 b1))
          let _ ←
            match alookup snapshotVars driver with
            | some (.recursive asc2 _ _) =>
              match asc2.find? (fun l => l ∉ asc1) with
              | some missing => M.fail (.doesNotDescendSubjectOfBegin missing)
              | none => pure ()
            | _ => pure ()
          let (inferredLoop, ctx2) ← M.liftOE (loopVarsF n subj snapshotVars ctx1 none)
          let _ ← M.liftOE (Ctx.cannotHaveObligationsF n ctx2)
          pure (.loop label caps, inferredLoop.or (some (.self_ label)), ctx2)
      | _ => M.fail (.invalidOperation typ)
    | .sendType argument k =>
      match typ with
      | .receiveType typeName thenT => do
        let thenT1 ← M.liftOE (OE.ofExcept (thenT.substitute typeName argument))
        let ctx1 ← M.liftOE (Ctx.putF n ctx obj thenT1)
        let (k1, inferred, ctx2) ← f ctx1 k
        pure (.sendType argument k1, inferred, ctx2)
      | _ => M.fail (.invalidOperation typ)
    | .receiveType param k =>
      match typ with
      | .sendType typeName thenT => do
        let thenT1 ← M.liftOE (OE.ofExcept (thenT.substitute typeName (.var param)))
        let ctx1 := { ctx with typeDefs := { ctx.typeDefs with vars := vinsert ctx.typeDefs.vars param } }
        let ctx2 ← M.liftOE (Ctx.putF n ctx1 obj thenT1)
        let (k1, inferred, ctx3) ← f ctx2 k
        pure (.receiveType param k1, inferred, ctx3)
      | _ => M.fail (.invalidOperation typ)

/-- Context::check_expression from src/par/types.rs. -/
def checkExpressionF : Nat → Option NameS → Ctx → Expr Unit → Ty → M (Expr Ty × Ctx)
  | 0, _, _, _, _ => M.out
  | n + 1, subj, ctx, .reference nm _, target =>
    if subj = some nm then M.fail (.typeMustBeKnownAtThisPoint nm)
    else do
      let (typ, ctx1) ← ctxGetF n ctx nm
      let _ ← M.liftOE (Ty.checkAssignableF ctx1.typeDefs n typ target)
      let lin ← M.liftOE (Ty.isLinearF ctx1.typeDefs n typ)
      let ctx2 ← if !lin then M.liftOE (Ctx.putF n ctx1 nm typ) else pure ctx1
      pure (.reference nm typ, ctx2)
  | n + 1, subj, ctx, .fork caps chanName chanAnnot _ _ process, target => do
    let targetDual ← M.liftOE (OE.ofOption (Ty.dualF ctx.typeDefs n target))
    let (chanType, exprType) ←
      match chanAnnot with
      | some annotated => do
        let _ ← M.liftOE (Ty.checkAssignableF ctx.typeDefs n annotated targetDual)
        pure (annotated, target)
      | none => pure (targetDual, target)
    let context0 := ctx.split
    let (ctx1, context1) ← M.liftOE (Ctx.captureF n subj caps ctx context0)
    let context2 ← M.liftOE (Ctx.putF n context1 chanName chanType)
    let (process1, _) ← checkProcessF n context2 process
    pure (.fork caps chanName chanAnnot chanType exprType process1, ctx1)
  | n + 1, _, ctx, .primitive v _, target => do
    let typ := v.getType
    let _ ← M.liftOE (Ty.checkAssignableF ctx.typeDefs n typ target)
    pure (.primitive v typ, ctx)

/-- Context::infer_expression from src/par/types.rs. -/
def inferExpressionF : Nat → Option NameS → Ctx → Expr Unit → M (Expr Ty × Ty × Ctx)
  | 0, _, _, _ => M.out
  | n + 1, subj, ctx, .reference nm _ =>
    if subj = some nm then M.fail (.typeMustBeKnownAtThisPoint nm)
    else do
      let (typ, ctx1) ← ctxGetF n ctx nm
      let lin ← M.liftOE (Ty.isLinearF ctx1.typeDefs n typ)
      let ctx2 ← if !lin then M.liftOE (Ctx.putF n ctx1 nm typ) else pure ctx1
      pure (.reference nm typ, typ, ctx2)
  | n + 1, subj, ctx, .fork caps chanName chanAnnot _ _ process => do
    let context0 := ctx.split
    let (ctx1, context1) ← M.liftOE (Ctx.captureF n subj caps ctx context0)
    let (process1, typ) ←
      match chanAnnot with
      | some typ => do
        let context2 ← M.liftOE (Ctx.putF n context1 chanName typ)
        let (p1, _) ← checkProcessF n context2 process
        pure (p1, typ)
      | none => do
        let (p1, typ, _) ← inferProcessF n context1 process chanName
        pure (p1, typ)
    let dual ← M.liftOE (OE.ofOption (Ty.dualF ctx1.typeDefs n typ))
    pure (.fork caps chanName chanAnnot typ dual process1, dual, ctx1)
  | _ + 1, _, ctx, .primitive v _ => do
    let typ := v.getType
    pure (.primitive v typ, typ, ctx)

/-- Context::infer_process from src/par/types.rs. -/
def inferProcessF : Nat → Ctx → Proc Unit → NameS → M (Proc Ty × Ty × Ctx)
  | 0, _, _, _ => M.out
  | n + 1, ctx, .letP nm annot _ value then_, subject => do
    let (value1, typ, ctx1) ←
      match annot with
      | some annotated => do
        let (e, c) ← checkExpressionF n (some subject) ctx value annotated
        pure (e, annotated, c)
      | none => inferExpressionF n (some subject) ctx value
    let ctx2 ← M.liftOE (Ctx.putF n ctx1 nm typ)
    let (then1, subjectType, ctx3) ← inferProcessF n ctx2 then_ subject
    pure (.letP nm annot typ value1 then1, subjectType, ctx3)
  | n + 1, ctx, .doP obj _ cmd, subject =>
    if obj = subject then do
      let (cmd1, typ, ctx1) ← inferCommandF n ctx subject cmd
      pure (.doP obj typ cmd1, typ, ctx1)
    else do
      let (typ, ctx1) ← ctxGetF n ctx obj
      let (cmd1, inferred, ctx2) ← checkCommandF n (some subject) ctx1 obj typ cmd
        (fun c p => do
          let (p1, t, c1) ← inferProcessF n c p subject
          pure (p1, some t, c1))
      match inferred with
      | none => M.fail (.typeMustBeKnownAtThisPoint subject)
      | some inferredType => pure (.doP obj typ cmd1, inferredType, ctx2)
  | _ + 1, ctx, .telltypes _, _ => M.fail (.telltypes ctx.varMap)

/-- Context::infer_command from src/par/types.rs. -/
def inferCommandF : Nat → Ctx → NameS → Cmd Unit → M (Cmd Ty × Ty × Ctx)
  | 0, _, _, _ => M.out
  | n + 1, ctx, subject, cmd =>
    match cmd with
    | .link e => do
      let (e1, typ, ctx1) ← inferExpressionF n (some subject) ctx e
      let d ← M.liftOE (OE.ofOption (Ty.dualF ctx1.typeDefs n typ))
      pure (.link e1, d, ctx1)
    | .send arg k => do
      let (arg1, argT, ctx1) ← inferExpressionF n (some subject) ctx arg
      let (k1, thenT, ctx2) ← inferProcessF n ctx1 k subject
      pure (.send arg1 k1, .receive argT thenT, ctx2)
    | .receive param annot _ k =>
      match annot with
      | none => M.fail (.parameterTypeMustBeKnown subject param)
      | some paramT => do
        let ctx1 ← M.liftOE (Ctx.putF n ctx param paramT)
        let (k1, thenT, ctx2) ← inferProcessF n ctx1 k subject
        pure (.receive param annot paramT k1, .send paramT thenT, ctx2)
    | .choose _ _ => M.fail (.typeMustBeKnownAtThisPoint subject)
    | .matchC branches processes => do
      let (typed, branchTypes, ctx1) ←
        inferMatchLoopF n ctx subject branches processes [] [] ctx
      pure (.matchC branches typed, .either branchTypes, ctx1)
    | .break_ => do
      let _ ← M.liftOE (Ctx.cannotHaveObligationsF n ctx)
      pure (.break_, .continue_, ctx)
    | .continue_ k => do
      let (k1, ctx1) ← checkProcessF n ctx k
      pure (.continue_ k1, .break_, ctx1)
    | .begin unfounded label caps body => do
      let ctx1 := { ctx with loopPoints := oinsert ctx.loopPoints label (subject, ctx.varMap) }
      let (body1, bodyT, ctx2) ← inferProcessF n ctx1 body subject
      let asc : List (Option NameS) := if unfounded then [] else [label]
      pure (.begin unfounded label caps body1, .recursive asc label bodyT, ctx2)
    | .loop label caps =>
      match olookup ctx.loopPoints label with
      | none => M.fail (.noSuchLoopPoint label)
      | some (driver, snapshotVars) =>
        if driver ≠ subject then M.fail (.typeMustBeKnownAtThisPoint subject)
        else do
          let ctx1 ← M.liftOE (inferLoopVarsF n snapshotVars ctx)
          let _ ← M.liftOE (Ctx.cannotHaveObligationsF n ctx1)
          pure (.loop label caps, .self_ label, ctx1)
    | .sendType _ _ => M.fail (.typeMustBeKnownAtThisPoint subject)
    | .receiveType param k => do
      let ctx1 := { ctx with typeDefs := { ctx.typeDefs with vars := vinsert ctx.typeDefs.vars param } }
      let (k1, thenT, ctx2) ← inferProcessF n ctx1 k subject
      pure (.receiveType param k1, .sendType param thenT, ctx2)

/-- The branch loop of the Match arm of Context::infer_command: each
branch restarts from a clone of the original context and contributes
its inferred type to an Either. -/
def inferMatchLoopF : Nat → Ctx → NameS → List NameS → List (Proc Unit) →
    List (Proc Ty) → List (NameS × Ty) → Ctx → M (List (Proc Ty) × List (NameS × Ty) × Ctx)
  | 0, _, _, _, _, _, _, _ => M.out
  | _ + 1, _, _, [], _, acc, branchTypes, cur => pure (acc, branchTypes, cur)
  | _ + 1, _, _, _, [], acc, branchTypes, cur => pure (acc, branchTypes, cur)
  | n + 1, orig, subject, b :: bs, p :: ps, acc, branchTypes, _ => do
    let (p1, typ, c1) ← inferProcessF n orig p subject
    inferMatchLoopF n orig subject bs ps (acc ++ [p1]) (inferMatchAccum branchTypes b typ) c1

end

/-! The runtime (src/par/runtime.rs).  The claims about it concern the
state-level behaviour of Context::put, Context::throw and the message
dispatch of Context::receive_from; one-shot channel endpoints are
abstracted by an identifier, and awaiting a receiver is modelled by
the optional message it yields (none when the sender was dropped,
which the source turns into a panic via expect). -/

/-- runtime::Operation from src/par/runtime.rs. -/
inductive RtOperation where
  | unknown
  | send
  | receive
  | choose (n : NameS)
  | matchOp (choices : List NameS)
  | break_
  | continue_
deriving Repr, DecidableEq

/-- runtime::Error from src/par/runtime.rs lines 10-18, spans dropped.
Note there is no ChannelBroken variant: the error taxonomy ends at
Multiple. -/
inductive RtError where
  | nameNotDefined (n : NameS)
  | shadowedObligation (n : NameS)
  | unfulfilledObligations (ns : List NameS)
  | incompatibleOperations (op1 : RtOperation) (op2 : RtOperation)
  | noSuchLoopPoint (l : Option NameS)
  | multiple (e1 : RtError) (e2 : RtError)
deriving Repr, DecidableEq

/-- runtime::Value: a one-shot channel endpoint, abstracted by the
identifier of its channel. -/
inductive RtValue where
  | receiver (id : Nat)
  | sender (id : Nat)
deriving Repr, DecidableEq

/-- runtime::Request from src/par/runtime.rs. -/
inductive RtRequest where
  | receive
  | matchR (choices : List NameS)
  | continue_
  | dynamic
deriving Repr, DecidableEq

/-- runtime::Message from src/par/runtime.rs; embedded endpoints are
channel identifiers. -/
inductive RtMessage where
  | swap (req : RtRequest) (tx : Nat)
  | send (v : RtValue) (rx : Nat)
  | choose (label : NameS) (rx : Nat)
  | break_
  | error (e : RtError)
deriving Repr, DecidableEq

/-- Request::into_operation from src/par/runtime.rs. -/
def RtRequest.intoOperation : RtRequest → RtOperation
  | .receive => .receive
  | .matchR cs => .matchOp cs
  | .continue_ => .continue_
  | .dynamic => .unknown

/-- The operation part of Message::into_operation_and_values (the
value part is the list of embedded endpoints, dropped here). -/
def RtMessage.intoOperation : RtMessage → Except RtError RtOperation
  | .swap req _ => .ok req.intoOperation
  | .send _ _ => .ok .send
  | .choose l _ => .ok (.choose l)
  | .break_ => .ok .break_
  | .error e => .error e

/-- The local state of a runtime Context that put and throw touch: the
variable map from names to held endpoint values (globals, loop points
and the spawner are untouched by these two functions). -/
structure RtContext where
  varMap : List (NameS × RtValue)
deriving Repr, DecidableEq

/-- What Context::throw does to the state: the context's variables are
drained into a pending worklist (followed by the extra values handed
in), a drain task is spawned over that worklist, and the error is
returned.  The worklist and the error are returned so that theorems
can see what was handed to the drain path. -/
structure RtThrown where
  pending : List RtValue
  err : RtError
deriving Repr, DecidableEq

/-- Context::throw from src/par/runtime.rs, at the state level. -/
def RtContext.throwRt (ctx : RtContext) (values : List RtValue) (e : RtError) :
    RtContext × RtThrown :=
  ({ varMap := [] }, { pending := ctx.varMap.map (fun q => q.2) ++ values, err := e })

/-- Context::put from src/par/runtime.rs lines 144-155: if the name is
already bound (to any value whatsoever, the runtime makes no linearity
distinction), the old value is shift-removed and handed to throw with
a ShadowedObligation error; otherwise the new value is inserted. -/
def RtContext.put (ctx : RtContext) (n : NameS) (v : RtValue) :
    Except (RtContext × RtThrown) RtContext :=
  match alookup ctx.varMap n with
  | some old =>
    .error (RtContext.throwRt { varMap := aremove ctx.varMap n } [old]
      (.shadowedObligation n))
  | none => .ok { varMap := ainsert ctx.varMap n v }

/-- The outcome of one iteration of the receive loop in
Context::receive_from. -/
inductive RecvOutcome where
  | panicSenderDropped
  | reswap (tx : Nat)
  | received (v : RtValue) (rx : Nat)
  | failed (e : RtError)
deriving Repr, DecidableEq

/-- One iteration of Context::receive_from from src/par/runtime.rs
lines 366-385, applied to the result of awaiting the receiver: none
models the sender having been dropped, which the source meets with
expect, i.e. a panic; a dynamic swap re-swaps and loops; a Send
message yields the value; anything else goes through
invalid_message_and_request (an Error message propagates that error,
other messages become IncompatibleOperations). -/
def receiveFromStep : Option RtMessage → RecvOutcome
  | none => .panicSenderDropped
  | some (.swap .dynamic tx) => .reswap tx
  | some (.send v rx) => .received v rx
  | some m =>
    match m.intoOperation with
    | .error e => .failed e
    | .ok op => .failed (.incompatibleOperations op .receive)

/-! Proof infrastructure for the duality claims.  dualP is the pure
skeleton of Type::dual on the fragment without named-type references
(where get_dual is never consulted and no fuel is ever consumed); it
is related to the fuelled embedding by dualF_eq_dualP below. -/

/-- An induction principle for Ty giving membership hypotheses for the
argument and branch lists. -/
def Ty.inductionOn {motive : Ty → Prop}
    (hprim : ∀ p, motive (.primitive p))
    (hchan : ∀ t, motive t → motive (.chan t))
    (hvar : ∀ v, motive (.var v))
    (hname : ∀ g args, (∀ a ∈ args, motive a) → motive (.name g args))
    (hsend : ∀ t u, motive t → motive u → motive (.send t u))
    (hreceive : ∀ t u, motive t → motive u → motive (.receive t u))
    (heither : ∀ bs, (∀ q ∈ bs, motive q.2) → motive (.either bs))
    (hchoice : ∀ bs, (∀ q ∈ bs, motive q.2) → motive (.choice bs))
    (hbreak : motive .break_)
    (hcont : motive .continue_)
    (hrec : ∀ asc l b, motive b → motive (.recursive asc l b))
    (hiter : ∀ asc l b, motive b → motive (.iterative asc l b))
    (hself : ∀ l, motive (.self_ l))
    (hst : ∀ v b, motive b → motive (.sendType v b))
    (hrt : ∀ v b, motive b → motive (.receiveType v b)) :
    ∀ t, motive t
  | .primitive p => hprim p
  | .chan t => hchan t (Ty.inductionOn hprim hchan hvar hname hsend hreceive heither
      hchoice hbreak hcont hrec hiter hself hst hrt t)
  | .var v => hvar v
  | .name g args => hname g args (fun a _ => Ty.inductionOn hprim hchan hvar hname hsend
      hreceive heither hchoice hbreak hcont hrec hiter hself hst hrt a)
  | .send t u =>
    hsend t u
      (Ty.inductionOn hprim hchan hvar hname hsend hreceive heither hchoice hbreak
        hcont hrec hiter hself hst hrt t)
      (Ty.inductionOn hprim hchan hvar hname hsend hreceive heither hchoice hbreak
        hcont hrec hiter hself hst hrt u)
  | .receive t u =>
    hreceive t u
      (Ty.inductionOn hprim hchan hvar hname hsend hreceive heither hchoice hbreak
        hcont hrec hiter hself hst hrt t)
      (Ty.inductionOn hprim hchan hvar hname hsend hreceive heither hchoice hbreak
        hcont hrec hiter hself hst hrt u)
  | .either bs => heither bs (fun q _ => Ty.inductionOn hprim hchan hvar hname hsend
      hreceive heither hchoice hbreak hcont hrec hiter hself hst hrt q.2)
  | .choice bs => hchoice bs (fun q _ => Ty.inductionOn hprim hchan hvar hname hsend
      hreceive heither hchoice hbreak hcont hrec hiter hself hst hrt q.2)
  | .break_ => hbreak
  | .continue_ => hcont
  | .recursive asc l b => hrec asc l b (Ty.inductionOn hprim hchan hvar hname hsend
      hreceive heither hchoice hbreak hcont hrec hiter hself hst hrt b)
  | .iterative asc l b => hiter asc l b (Ty.inductionOn hprim hchan hvar hname hsend
      hreceive heither hchoice hbreak hcont hrec hiter hself hst hrt b)
  | .self_ l => hself l
  | .sendType v b => hst v b (Ty.inductionOn hprim hchan hvar hname hsend hreceive
      heither hchoice hbreak hcont hrec hiter hself hst hrt b)
  | .receiveType v b => hrt v b (Ty.inductionOn hprim hchan hvar hname hsend hreceive
      heither hchoice hbreak hcont hrec hiter hself hst hrt b)
termination_by t => sizeOf t
decreasing_by
  all_goals simp_wf
  all_goals try omega
  all_goals rename_i h
  all_goals have h1 := List.sizeOf_lt_of_mem h
  all_goals first
    | omega
    | (obtain ⟨x, y⟩ := q; simp at h1 ⊢; omega)

mutual

/-- Pure skeleton of Type::dual on the fragment without named-type
references: identical to the fuelled embedding everywhere except the
Name case (which the freeness hypothesis of every lemma about it
excludes), and consuming no fuel. -/
def dualP : Ty → Ty
  | .primitive p => .chan (.primitive p)
  | .chan t => t
  | .var v => .chan (.var v)
  | .name g args => .chan (.name g args)
  | .send t u => .receive t (dualP u)
  | .receive t u => .send t (dualP u)
  | .either bs => .choice (dualPB bs)
  | .choice bs => .either (dualPB bs)
  | .break_ => .continue_
  | .continue_ => .break_
  | .recursive asc l b => .iterative asc l (chanSelf l (dualP b))
  | .iterative asc l b => .recursive asc l (chanSelf l (dualP b))
  | .self_ l => .chan (.self_ l)
  | .sendType v b => .receiveType v (dualP b)
  | .receiveType v b => .sendType v (dualP b)

def dualPB : List (NameS × Ty) → List (NameS × Ty)
  | [] => []
  | (k, t) :: rest => (k, dualP t) :: dualPB rest

end

mutual

/-- No Name constructor anywhere in the type. -/
def nameFree : Ty → Bool
  | .primitive _ => true
  | .chan t => nameFree t
  | .var _ => true
  | .name _ _ => false
  | .send t u => nameFree t && nameFree u
  | .receive t u => nameFree t && nameFree u
  | .either bs => nameFreeB bs
  | .choice bs => nameFreeB bs
  | .break_ => true
  | .continue_ => true
  | .recursive _ _ b => nameFree b
  | .iterative _ _ b => nameFree b
  | .self_ _ => true
  | .sendType _ b => nameFree b
  | .receiveType _ b => nameFree b

def nameFreeB : List (NameS × Ty) → Bool
  | [] => true
  | (_, t) :: rest => nameFree t && nameFreeB rest

end

mutual

/-- No Chan constructor anywhere in the type. -/
def chanFree : Ty → Bool
  | .primitive _ => true
  | .chan _ => false
  | .var _ => true
  | .name _ args => chanFreeA args
  | .send t u => chanFree t && chanFree u
  | .receive t u => chanFree t && chanFree u
  | .either bs => chanFreeB bs
  | .choice bs => chanFreeB bs
  | .break_ => true
  | .continue_ => true
  | .recursive _ _ b => chanFree b
  | .iterative _ _ b => chanFree b
  | .self_ _ => true
  | .sendType _ b => chanFree b
  | .receiveType _ b => chanFree b

def chanFreeA : List Ty → Bool
  | [] => true
  | t :: rest => chanFree t && chanFreeA rest

def chanFreeB : List (NameS × Ty) → Bool
  | [] => true
  | (_, t) :: rest => chanFree t && chanFreeB rest

end

mutual

/-- The class of types closed under dualP and chanSelf on which the
involution argument runs: no Name constructor, and every Chan wraps a
leaf (Primitive, Var or Self). -/
def okT : Ty → Bool
  | .primitive _ => true
  | .chan (.primitive _) => true
  | .chan (.var _) => true
  | .chan (.self_ _) => true
  | .chan _ => false
  | .var _ => true
  | .name _ _ => false
  | .send t u => okT t && okT u
  | .receive t u => okT t && okT u
  | .either bs => okTB bs
  | .choice bs => okTB bs
  | .break_ => true
  | .continue_ => true
  | .recursive _ _ b => okT b
  | .iterative _ _ b => okT b
  | .self_ _ => true
  | .sendType _ b => okT b
  | .receiveType _ b => okT b

def okTB : List (NameS × Ty) → Bool
  | [] => true
  | (_, t) :: rest => okT t && okTB rest

end

theorem okTB_iff (bs : List (NameS × Ty)) : okTB bs = true ↔ ∀ q ∈ bs, okT q.2 = true := by
  induction bs with
  | nil => simp [okTB]
  | cons q rest ih =>
    obtain ⟨k, t⟩ := q
    simp [okTB, ih]

theorem nameFreeB_iff (bs : List (NameS × Ty)) :
    nameFreeB bs = true ↔ ∀ q ∈ bs, nameFree q.2 = true := by
  induction bs with
  | nil => simp [nameFreeB]
  | cons q rest ih =>
    obtain ⟨k, t⟩ := q
    simp [nameFreeB, ih]

theorem chanFreeB_iff (bs : List (NameS × Ty)) :
    chanFreeB bs = true ↔ ∀ q ∈ bs, chanFree q.2 = true := by
  induction bs with
  | nil => simp [chanFreeB]
  | cons q rest ih =>
    obtain ⟨k, t⟩ := q
    simp [chanFreeB, ih]

theorem dualPB_eq_map (bs : List (NameS × Ty)) :
    dualPB bs = bs.map (fun q => (q.1, dualP q.2)) := by
  induction bs with
  | nil => simp [dualPB]
  | cons q rest ih =>
    obtain ⟨k, t⟩ := q
    simp [dualPB, ih]

theorem chanSelfBranches_eq_map (l : Option NameS) (bs : List (NameS × Ty)) :
    chanSelfBranches l bs = bs.map (fun q => (q.1, chanSelf l q.2)) := by
  induction bs with
  | nil => simp [chanSelfBranches]
  | cons q rest ih =>
    obtain ⟨k, t⟩ := q
    simp [chanSelfBranches, ih]

/-- A type with no Chan and no Name constructor lies in the ok class. -/
theorem okT_of_chanFree_nameFree :
    ∀ t, chanFree t = true → nameFree t = true → okT t = true := by
  intro t
  induction t using Ty.inductionOn with
  | hprim p => simp [chanFree, nameFree, okT]
  | hchan t _ => simp [chanFree]
  | hvar v => simp [okT]
  | hname g args _ => simp [nameFree]
  | hsend t u iht ihu =>
    simp [chanFree, nameFree, okT]
    intro h1 h2 h3 h4
    exact ⟨iht h1 h3, ihu h2 h4⟩
  | hreceive t u iht ihu =>
    simp [chanFree, nameFree, okT]
    intro h1 h2 h3 h4
    exact ⟨iht h1 h3, ihu h2 h4⟩
  | heither bs ih =>
    simp [chanFree, nameFree, okT, chanFreeB_iff, nameFreeB_iff, okTB_iff]
    intro h1 h2 k t hq
    exact ih (k, t) hq (h1 k t hq) (h2 k t hq)
  | hchoice bs ih =>
    simp [chanFree, nameFree, okT, chanFreeB_iff, nameFreeB_iff, okTB_iff]
    intro h1 h2 k t hq
    exact ih (k, t) hq (h1 k t hq) (h2 k t hq)
  | hbreak => simp [okT]
  | hcont => simp [okT]
  | hrec asc l b ih => simp [chanFree, nameFree, okT]; exact ih
  | hiter asc l b ih => simp [chanFree, nameFree, okT]; exact ih
  | hself l => simp [okT]
  | hst v b ih => simp [chanFree, nameFree, okT]; exact ih
  | hrt v b ih => simp [chanFree, nameFree, okT]; exact ih

/-- Pointwise transport of okT through chanSelfBranches. -/
theorem okTB_chanSelfB (l : Option NameS) (bs : List (NameS × Ty))
    (h : ∀ q ∈ bs, okT q.2 = true → okT (chanSelf l q.2) = true)
    (hok : okTB bs = true) : okTB (chanSelfBranches l bs) = true := by
  induction bs with
  | nil => simp [chanSelfBranches, okTB]
  | cons q rest ih =>
    obtain ⟨k, t⟩ := q
    simp [chanSelfBranches, okTB] at hok ⊢
    refine ⟨h (k, t) (by simp) hok.1, ih ?_ hok.2⟩
    intro q hq hq2
    exact h q (by simp [hq]) hq2

/-- chanSelf preserves the ok class. -/
theorem okT_chanSelf (l : Option NameS) :
    ∀ t, okT t = true → okT (chanSelf l t) = true := by
  intro t
  induction t using Ty.inductionOn with
  | hprim p => intro _; simp [chanSelf, okT]
  | hchan t ih =>
    intro hok
    cases t with
    | primitive p => simp [chanSelf, okT]
    | var v => simp [chanSelf, okT]
    | self_ l1 =>
      by_cases h : l1 = l <;> simp [chanSelf, h, okT]
    | chan t1 => simp [okT] at hok
    | name g args => simp [okT] at hok
    | send t1 u1 => simp [okT] at hok
    | receive t1 u1 => simp [okT] at hok
    | either bs => simp [okT] at hok
    | choice bs => simp [okT] at hok
    | break_ => simp [okT] at hok
    | continue_ => simp [okT] at hok
    | recursive asc l1 b => simp [okT] at hok
    | iterative asc l1 b => simp [okT] at hok
    | sendType v b => simp [okT] at hok
    | receiveType v b => simp [okT] at hok
  | hvar v => intro _; simp [chanSelf, okT]
  | hname g args _ => intro hok; simp [okT] at hok
  | hsend t u iht ihu =>
    intro hok
    simp [okT] at hok
    simp [chanSelf, okT, iht hok.1, ihu hok.2]
  | hreceive t u iht ihu =>
    intro hok
    simp [okT] at hok
    simp [chanSelf, okT, iht hok.1, ihu hok.2]
  | heither bs ih =>
    intro hok
    simp [okT] at hok
    simp [chanSelf, okT]
    exact okTB_chanSelfB l bs ih hok
  | hchoice bs ih =>
    intro hok
    simp [okT] at hok
    simp [chanSelf, okT]
    exact okTB_chanSelfB l bs ih hok
  | hbreak => intro _; simp [chanSelf, okT]
  | hcont => intro _; simp [chanSelf, okT]
  | hrec asc l1 b ih =>
    intro hok
    simp [okT] at hok
    by_cases h : l1 = l <;> simp [chanSelf, h, okT, hok, ih hok]
  | hiter asc l1 b ih =>
    intro hok
    simp [okT] at hok
    by_cases h : l1 = l <;> simp [chanSelf, h, okT, hok, ih hok]
  | hself l1 =>
    intro _
    by_cases h : l1 = l <;> simp [chanSelf, h, okT]
  | hst v b ih =>
    intro hok
    simp [okT] at hok
    simp [chanSelf, okT, ih hok]
  | hrt v b ih =>
    intro hok
    simp [okT] at hok
    simp [chanSelf, okT, ih hok]

theorem mapSnd_congr {f g : Ty → Ty} :
    ∀ bs : List (NameS × Ty), (∀ q ∈ bs, f q.2 = g q.2) →
      bs.map (fun q => (q.1, f q.2)) = bs.map (fun q => (q.1, g q.2)) := by
  intro bs h
  induction bs with
  | nil => simp
  | cons q rest ih =>
    obtain ⟨k, t⟩ := q
    simp only [List.map_cons]
    rw [h (k, t) (by simp)]
    rw [ih (fun q hq => h q (by simp [hq]))]

theorem mapSnd_id {f : Ty → Ty} :
    ∀ bs : List (NameS × Ty), (∀ q ∈ bs, f q.2 = q.2) →
      bs.map (fun q => (q.1, f q.2)) = bs := by
  intro bs h
  induction bs with
  | nil => simp
  | cons q rest ih =>
    obtain ⟨k, t⟩ := q
    simp only [List.map_cons]
    rw [h (k, t) (by simp)]
    rw [ih (fun q hq => h q (by simp [hq]))]

theorem dualPB_pointwise (bs : List (NameS × Ty))
    (h : ∀ q ∈ bs, okT q.2 = true → okT (dualP q.2) = true)
    (hok : okTB bs = true) : okTB (dualPB bs) = true := by
  induction bs with
  | nil => simp [dualPB, okTB]
  | cons q rest ih =>
    obtain ⟨k, t⟩ := q
    simp [dualPB, okTB] at hok ⊢
    refine ⟨h (k, t) (by simp) hok.1, ih ?_ hok.2⟩
    intro q hq hq2
    exact h q (by simp [hq]) hq2

/-- dualP preserves the ok class. -/
theorem okT_dualP : ∀ t, okT t = true → okT (dualP t) = true := by
  intro t
  induction t using Ty.inductionOn with
  | hprim p => intro _; simp [dualP, okT]
  | hchan t ih =>
    intro hok
    cases t with
    | primitive p => simp [dualP, okT]
    | var v => simp [dualP, okT]
    | self_ l1 => simp [dualP, okT]
    | chan t1 => simp [okT] at hok
    | name g args => simp [okT] at hok
    | send t1 u1 => simp [okT] at hok
    | receive t1 u1 => simp [okT] at hok
    | either bs => simp [okT] at hok
    | choice bs => simp [okT] at hok
    | break_ => simp [okT] at hok
    | continue_ => simp [okT] at hok
    | recursive asc l1 b => simp [okT] at hok
    | iterative asc l1 b => simp [okT] at hok
    | sendType v b => simp [okT] at hok
    | receiveType v b => simp [okT] at hok
  | hvar v => intro _; simp [dualP, okT]
  | hname g args _ => intro hok; simp [okT] at hok
  | hsend t u iht ihu =>
    intro hok
    simp [okT] at hok
    simp [dualP, okT, hok.1, ihu hok.2]
  | hreceive t u iht ihu =>
    intro hok
    simp [okT] at hok
    simp [dualP, okT, hok.1, ihu hok.2]
  | heither bs ih =>
    intro hok
    simp [okT] at hok
    simp [dualP, okT]
    exact dualPB_pointwise bs ih hok
  | hchoice bs ih =>
    intro hok
    simp [okT] at hok
    simp [dualP, okT]
    exact dualPB_pointwise bs ih hok
  | hbreak => intro _; simp [dualP, okT]
  | hcont => intro _; simp [dualP, okT]
  | hrec asc l b ih =>
    intro hok
    simp [okT] at hok
    simp [dualP, okT]
    exact okT_chanSelf l (dualP b) (ih hok)
  | hiter asc l b ih =>
    intro hok
    simp [okT] at hok
    simp [dualP, okT]
    exact okT_chanSelf l (dualP b) (ih hok)
  | hself l => intro _; simp [dualP, okT]
  | hst v b ih =>
    intro hok
    simp [okT] at hok
    simp [dualP, okT, ih hok]
  | hrt v b ih =>
    intro hok
    simp [okT] at hok
    simp [dualP, okT, ih hok]

theorem csB_invol (l : Option NameS) (bs : List (NameS × Ty))
    (h : ∀ q ∈ bs, okT q.2 = true → chanSelf l (chanSelf l q.2) = q.2)
    (hok : okTB bs = true) :
    chanSelfBranches l (chanSelfBranches l bs) = bs := by
  induction bs with
  | nil => simp [chanSelfBranches]
  | cons q rest ih =>
    obtain ⟨k, t⟩ := q
    simp [chanSelfBranches, okTB] at hok ⊢
    refine ⟨h (k, t) (by simp) hok.1, ih ?_ hok.2⟩
    intro q hq hq2
    exact h q (by simp [hq]) hq2

/-- chanSelf with the same label is an involution on the ok class. -/
theorem chanSelf_invol (l : Option NameS) :
    ∀ t, okT t = true → chanSelf l (chanSelf l t) = t := by
  intro t
  induction t using Ty.inductionOn with
  | hprim p => intro _; simp [chanSelf]
  | hchan t ih =>
    intro hok
    cases t with
    | primitive p => simp [chanSelf]
    | var v => simp [chanSelf]
    | self_ l1 =>
      by_cases h : l1 = l <;> simp [chanSelf, h]
    | chan t1 => simp [okT] at hok
    | name g args => simp [okT] at hok
    | send t1 u1 => simp [okT] at hok
    | receive t1 u1 => simp [okT] at hok
    | either bs => simp [okT] at hok
    | choice bs => simp [okT] at hok
    | break_ => simp [okT] at hok
    | continue_ => simp [okT] at hok
    | recursive asc l1 b => simp [okT] at hok
    | iterative asc l1 b => simp [okT] at hok
    | sendType v b => simp [okT] at hok
    | receiveType v b => simp [okT] at hok
  | hvar v => intro _; simp [chanSelf]
  | hname g args _ => intro hok; simp [okT] at hok
  | hsend t u iht ihu =>
    intro hok
    simp [okT] at hok
    simp [chanSelf, iht hok.1, ihu hok.2]
  | hreceive t u iht ihu =>
    intro hok
    simp [okT] at hok
    simp [chanSelf, iht hok.1, ihu hok.2]
  | heither bs ih =>
    intro hok
    simp [okT] at hok
    simp [chanSelf]
    exact csB_invol l bs ih hok
  | hchoice bs ih =>
    intro hok
    simp [okT] at hok
    simp [chanSelf]
    exact csB_invol l bs ih hok
  | hbreak => intro _; simp [chanSelf]
  | hcont => intro _; simp [chanSelf]
  | hrec asc l1 b ih =>
    intro hok
    simp [okT] at hok
    by_cases h : l1 = l <;> simp [chanSelf, h, ih hok]
  | hiter asc l1 b ih =>
    intro hok
    simp [okT] at hok
    by_cases h : l1 = l <;> simp [chanSelf, h, ih hok]
  | hself l1 =>
    intro _
    by_cases h : l1 = l <;> simp [chanSelf, h]
  | hst v b ih =>
    intro hok
    simp [okT] at hok
    simp [chanSelf, ih hok]
  | hrt v b ih =>
    intro hok
    simp [okT] at hok
    simp [chanSelf, ih hok]

theorem csB_comm (l l' : Option NameS) (bs : List (NameS × Ty))
    (h : ∀ q ∈ bs, okT q.2 = true →
      chanSelf l (chanSelf l' q.2) = chanSelf l' (chanSelf l q.2))
    (hok : okTB bs = true) :
    chanSelfBranches l (chanSelfBranches l' bs) =
      chanSelfBranches l' (chanSelfBranches l bs) := by
  induction bs with
  | nil => simp [chanSelfBranches]
  | cons q rest ih =>
    obtain ⟨k, t⟩ := q
    simp [chanSelfBranches, okTB] at hok ⊢
    refine ⟨h (k, t) (by simp) hok.1, ih ?_ hok.2⟩
    intro q hq hq2
    exact h q (by simp [hq]) hq2

/-- chanSelf applications with different labels commute on the ok
class. -/
theorem chanSelf_comm (l l' : Option NameS) :
    ∀ t, okT t = true → chanSelf l (chanSelf l' t) = chanSelf l' (chanSelf l t) := by
  intro t
  induction t using Ty.inductionOn with
  | hprim p => intro _; simp [chanSelf]
  | hchan t ih =>
    intro hok
    cases t with
    | primitive p => simp [chanSelf]
    | var v => simp [chanSelf]
    | self_ l1 =>
      by_cases h0 : l = l' <;> by_cases h1 : l1 = l' <;> by_cases h2 : l1 = l <;>
        simp_all [chanSelf]
    | chan t1 => simp [okT] at hok
    | name g args => simp [okT] at hok
    | send t1 u1 => simp [okT] at hok
    | receive t1 u1 => simp [okT] at hok
    | either bs => simp [okT] at hok
    | choice bs => simp [okT] at hok
    | break_ => simp [okT] at hok
    | continue_ => simp [okT] at hok
    | recursive asc l1 b => simp [okT] at hok
    | iterative asc l1 b => simp [okT] at hok
    | sendType v b => simp [okT] at hok
    | receiveType v b => simp [okT] at hok
  | hvar v => intro _; simp [chanSelf]
  | hname g args _ => intro hok; simp [okT] at hok
  | hsend t u iht ihu =>
    intro hok
    simp [okT] at hok
    simp [chanSelf, iht hok.1, ihu hok.2]
  | hreceive t u iht ihu =>
    intro hok
    simp [okT] at hok
    simp [chanSelf, iht hok.1, ihu hok.2]
  | heither bs ih =>
    intro hok
    simp [okT] at hok
    simp [chanSelf]
    exact csB_comm l l' bs ih hok
  | hchoice bs ih =>
    intro hok
    simp [okT] at hok
    simp [chanSelf]
    exact csB_comm l l' bs ih hok
  | hbreak => intro _; simp [chanSelf]
  | hcont => intro _; simp [chanSelf]
  | hrec asc l1 b ih =>
    intro hok
    simp [okT] at hok
    by_cases h0 : l = l' <;> by_cases h1 : l1 = l' <;> by_cases h2 : l1 = l <;>
      simp_all [chanSelf]
  | hiter asc l1 b ih =>
    intro hok
    simp [okT] at hok
    by_cases h0 : l = l' <;> by_cases h1 : l1 = l' <;> by_cases h2 : l1 = l <;>
      simp_all [chanSelf]
  | hself l1 =>
    intro _
    by_cases h0 : l = l' <;> by_cases h1 : l1 = l' <;> by_cases h2 : l1 = l <;>
      simp_all [chanSelf]
  | hst v b ih =>
    intro hok
    simp [okT] at hok
    simp [chanSelf, ih hok]
  | hrt v b ih =>
    intro hok
    simp [okT] at hok
    simp [chanSelf, ih hok]

theorem csB_dualPB (l : Option NameS) (bs : List (NameS × Ty))
    (h : ∀ q ∈ bs, okT q.2 = true →
      chanSelf l (dualP q.2) = dualP (chanSelf l q.2))
    (hok : okTB bs = true) :
    chanSelfBranches l (dualPB bs) = dualPB (chanSelfBranches l bs) := by
  induction bs with
  | nil => simp [chanSelfBranches, dualPB]
  | cons q rest ih =>
    obtain ⟨k, t⟩ := q
    simp [chanSelfBranches, dualPB, okTB] at hok ⊢
    refine ⟨h (k, t) (by simp) hok.1, ih ?_ hok.2⟩
    intro q hq hq2
    exact h q (by simp [hq]) hq2

/-- chanSelf commutes with dualP on the ok class. -/
theorem chanSelf_dualP (l : Option NameS) :
    ∀ t, okT t = true → chanSelf l (dualP t) = dualP (chanSelf l t) := by
  intro t
  induction t using Ty.inductionOn with
  | hprim p => intro _; simp [dualP, chanSelf]
  | hchan t ih =>
    intro hok
    cases t with
    | primitive p => simp [dualP, chanSelf]
    | var v => simp [dualP, chanSelf]
    | self_ l1 =>
      by_cases h : l1 = l <;> simp [dualP, chanSelf, h]
    | chan t1 => simp [okT] at hok
    | name g args => simp [okT] at hok
    | send t1 u1 => simp [okT] at hok
    | receive t1 u1 => simp [okT] at hok
    | either bs => simp [okT] at hok
    | choice bs => simp [okT] at hok
    | break_ => simp [okT] at hok
    | continue_ => simp [okT] at hok
    | recursive asc l1 b => simp [okT] at hok
    | iterative asc l1 b => simp [okT] at hok
    | sendType v b => simp [okT] at hok
    | receiveType v b => simp [okT] at hok
  | hvar v => intro _; simp [dualP, chanSelf]
  | hname g args _ => intro hok; simp [okT] at hok
  | hsend t u iht ihu =>
    intro hok
    simp [okT] at hok
    simp [dualP, chanSelf, ihu hok.2]
  | hreceive t u iht ihu =>
    intro hok
    simp [okT] at hok
    simp [dualP, chanSelf, ihu hok.2]
  | heither bs ih =>
    intro hok
    simp [okT] at hok
    simp [dualP, chanSelf]
    exact csB_dualPB l bs ih hok
  | hchoice bs ih =>
    intro hok
    simp [okT] at hok
    simp [dualP, chanSelf]
    exact csB_dualPB l bs ih hok
  | hbreak => intro _; simp [dualP, chanSelf]
  | hcont => intro _; simp [dualP, chanSelf]
  | hrec asc l1 b ih =>
    intro hok
    simp [okT] at hok
    by_cases h : l1 = l
    · subst h
      simp [dualP, chanSelf]
    · simp [dualP, chanSelf, h]
      rw [chanSelf_comm l l1 (dualP b) (okT_dualP b hok), ih hok]
  | hiter asc l1 b ih =>
    intro hok
    simp [okT] at hok
    by_cases h : l1 = l
    · subst h
      simp [dualP, chanSelf]
    · simp [dualP, chanSelf, h]
      rw [chanSelf_comm l l1 (dualP b) (okT_dualP b hok), ih hok]
  | hself l1 =>
    intro _
    by_cases h : l1 = l <;> simp [dualP, chanSelf, h]
  | hst v b ih =>
    intro hok
    simp [okT] at hok
    simp [dualP, chanSelf, ih hok]
  | hrt v b ih =>
    intro hok
    simp [okT] at hok
    simp [dualP, chanSelf, ih hok]

theorem dualPB_invol (bs : List (NameS × Ty))
    (h : ∀ q ∈ bs, chanFree q.2 = true → nameFree q.2 = true →
      dualP (dualP q.2) = q.2)
    (hcf : chanFreeB bs = true) (hnf : nameFreeB bs = true) :
    dualPB (dualPB bs) = bs := by
  induction bs with
  | nil => simp [dualPB]
  | cons q rest ih =>
    obtain ⟨k, t⟩ := q
    simp [dualPB, chanFreeB, nameFreeB] at hcf hnf ⊢
    refine ⟨h (k, t) (by simp) hcf.1 hnf.1, ih ?_ hcf.2 hnf.2⟩
    intro q hq h1 h2
    exact h q (by simp [hq]) h1 h2

/-- dualP is an involution on Chan-free, Name-free types. -/
theorem dualP_invol :
    ∀ t, chanFree t = true → nameFree t = true → dualP (dualP t) = t := by
  intro t
  induction t using Ty.inductionOn with
  | hprim p => intro _ _; simp [dualP]
  | hchan t _ => intro hcf _; simp [chanFree] at hcf
  | hvar v => intro _ _; simp [dualP]
  | hname g args _ => intro _ hnf; simp [nameFree] at hnf
  | hsend t u iht ihu =>
    intro hcf hnf
    simp [chanFree, nameFree] at hcf hnf
    simp [dualP, ihu hcf.2 hnf.2]
  | hreceive t u iht ihu =>
    intro hcf hnf
    simp [chanFree, nameFree] at hcf hnf
    simp [dualP, ihu hcf.2 hnf.2]
  | heither bs ih =>
    intro hcf hnf
    simp [chanFree, nameFree] at hcf hnf
    simp [dualP]
    exact dualPB_invol bs ih hcf hnf
  | hchoice bs ih =>
    intro hcf hnf
    simp [chanFree, nameFree] at hcf hnf
    simp [dualP]
    exact dualPB_invol bs ih hcf hnf
  | hbreak => intro _ _; simp [dualP]
  | hcont => intro _ _; simp [dualP]
  | hrec asc l b ih =>
    intro hcf hnf
    simp [chanFree, nameFree] at hcf hnf
    have hokb : okT b = true := okT_of_chanFree_nameFree b hcf hnf
    have hokd : okT (dualP b) = true := okT_dualP b hokb
    simp [dualP]
    rw [← chanSelf_dualP l (dualP b) hokd]
    rw [chanSelf_invol l (dualP (dualP b)) (okT_dualP (dualP b) hokd)]
    exact ih hcf hnf
  | hiter asc l b ih =>
    intro hcf hnf
    simp [chanFree, nameFree] at hcf hnf
    have hokb : okT b = true := okT_of_chanFree_nameFree b hcf hnf
    have hokd : okT (dualP b) = true := okT_dualP b hokb
    simp [dualP]
    rw [← chanSelf_dualP l (dualP b) hokd]
    rw [chanSelf_invol l (dualP (dualP b)) (okT_dualP (dualP b) hokd)]
    exact ih hcf hnf
  | hself l => intro _ _; simp [dualP]
  | hst v b ih =>
    intro hcf hnf
    simp [chanFree, nameFree] at hcf hnf
    simp [dualP, ih hcf hnf]
  | hrt v b ih =>
    intro hcf hnf
    simp [chanFree, nameFree] at hcf hnf
    simp [dualP, ih hcf hnf]

theorem nameFreeB_chanSelfB (l : Option NameS) (bs : List (NameS × Ty))
    (h : ∀ q ∈ bs, nameFree q.2 = true → nameFree (chanSelf l q.2) = true)
    (hnf : nameFreeB bs = true) : nameFreeB (chanSelfBranches l bs) = true := by
  induction bs with
  | nil => simp [chanSelfBranches, nameFreeB]
  | cons q rest ih =>
    obtain ⟨k, t⟩ := q
    simp [chanSelfBranches, nameFreeB] at hnf ⊢
    refine ⟨h (k, t) (by simp) hnf.1, ih ?_ hnf.2⟩
    intro q hq hq2
    exact h q (by simp [hq]) hq2

/-- chanSelf preserves Name-freeness. -/
theorem nameFree_chanSelf (l : Option NameS) :
    ∀ t, nameFree t = true → nameFree (chanSelf l t) = true := by
  intro t
  induction t using Ty.inductionOn with
  | hprim p => intro _; simp [chanSelf, nameFree]
  | hchan t ih =>
    intro hnf
    simp [nameFree] at hnf
    cases t with
    | self_ l1 =>
      by_cases h : l1 = l <;> simp [chanSelf, h, nameFree]
    | primitive p => simp [chanSelf, nameFree]
    | var v => simp [chanSelf, nameFree]
    | chan t1 => simp [chanSelf, nameFree] at hnf ⊢; exact ih hnf
    | name g args => simp [nameFree] at hnf
    | send t1 u1 =>
      have h2 := ih hnf
      simp [chanSelf, nameFree] at h2 ⊢
      exact h2
    | receive t1 u1 =>
      have h2 := ih hnf
      simp [chanSelf, nameFree] at h2 ⊢
      exact h2
    | either bs =>
      have h2 := ih hnf
      simp [chanSelf, nameFree] at h2 ⊢
      exact h2
    | choice bs =>
      have h2 := ih hnf
      simp [chanSelf, nameFree] at h2 ⊢
      exact h2
    | break_ => simp [chanSelf, nameFree]
    | continue_ => simp [chanSelf, nameFree]
    | recursive asc l1 b =>
      have h2 := ih hnf
      simp [chanSelf, nameFree] at h2 ⊢
      exact h2
    | iterative asc l1 b =>
      have h2 := ih hnf
      simp [chanSelf, nameFree] at h2 ⊢
      exact h2
    | sendType v b =>
      have h2 := ih hnf
      simp [chanSelf, nameFree] at h2 ⊢
      exact h2
    | receiveType v b =>
      have h2 := ih hnf
      simp [chanSelf, nameFree] at h2 ⊢
      exact h2
  | hvar v => intro _; simp [chanSelf, nameFree]
  | hname g args _ => intro hnf; simp [nameFree] at hnf
  | hsend t u iht ihu =>
    intro hnf
    simp [nameFree] at hnf
    simp [chanSelf, nameFree, iht hnf.1, ihu hnf.2]
  | hreceive t u iht ihu =>
    intro hnf
    simp [nameFree] at hnf
    simp [chanSelf, nameFree, iht hnf.1, ihu hnf.2]
  | heither bs ih =>
    intro hnf
    simp [nameFree] at hnf
    simp [chanSelf, nameFree]
    exact nameFreeB_chanSelfB l bs ih hnf
  | hchoice bs ih =>
    intro hnf
    simp [nameFree] at hnf
    simp [chanSelf, nameFree]
    exact nameFreeB_chanSelfB l bs ih hnf
  | hbreak => intro _; simp [chanSelf, nameFree]
  | hcont => intro _; simp [chanSelf, nameFree]
  | hrec asc l1 b ih =>
    intro hnf
    simp [nameFree] at hnf
    by_cases h : l1 = l <;> simp [chanSelf, h, nameFree, hnf, ih hnf]
  | hiter asc l1 b ih =>
    intro hnf
    simp [nameFree] at hnf
    by_cases h : l1 = l <;> simp [chanSelf, h, nameFree, hnf, ih hnf]
  | hself l1 =>
    intro _
    by_cases h : l1 = l <;> simp [chanSelf, h, nameFree]
  | hst v b ih =>
    intro hnf
    simp [nameFree] at hnf
    simp [chanSelf, nameFree, ih hnf]
  | hrt v b ih =>
    intro hnf
    simp [nameFree] at hnf
    simp [chanSelf, nameFree, ih hnf]

theorem nameFreeB_dualPB (bs : List (NameS × Ty))
    (h : ∀ q ∈ bs, nameFree q.2 = true → nameFree (dualP q.2) = true)
    (hnf : nameFreeB bs = true) : nameFreeB (dualPB bs) = true := by
  induction bs with
  | nil => simp [dualPB, nameFreeB]
  | cons q rest ih =>
    obtain ⟨k, t⟩ := q
    simp [dualPB, nameFreeB] at hnf ⊢
    refine ⟨h (k, t) (by simp) hnf.1, ih ?_ hnf.2⟩
    intro q hq hq2
    exact h q (by simp [hq]) hq2

/-- dualP preserves Name-freeness. -/
theorem nameFree_dualP : ∀ t, nameFree t = true → nameFree (dualP t) = true := by
  intro t
  induction t using Ty.inductionOn with
  | hprim p => intro _; simp [dualP, nameFree]
  | hchan t _ =>
    intro hnf
    simp [nameFree] at hnf
    simp [dualP, hnf]
  | hvar v => intro _; simp [dualP, nameFree]
  | hname g args _ => intro hnf; simp [nameFree] at hnf
  | hsend t u _ ihu =>
    intro hnf
    simp [nameFree] at hnf
    simp [dualP, nameFree, hnf.1, ihu hnf.2]
  | hreceive t u _ ihu =>
    intro hnf
    simp [nameFree] at hnf
    simp [dualP, nameFree, hnf.1, ihu hnf.2]
  | heither bs ih =>
    intro hnf
    simp [nameFree] at hnf
    simp [dualP, nameFree]
    exact nameFreeB_dualPB bs ih hnf
  | hchoice bs ih =>
    intro hnf
    simp [nameFree] at hnf
    simp [dualP, nameFree]
    exact nameFreeB_dualPB bs ih hnf
  | hbreak => intro _; simp [dualP, nameFree]
  | hcont => intro _; simp [dualP, nameFree]
  | hrec asc l b ih =>
    intro hnf
    simp [nameFree] at hnf
    simp [dualP, nameFree]
    exact nameFree_chanSelf l (dualP b) (ih hnf)
  | hiter asc l b ih =>
    intro hnf
    simp [nameFree] at hnf
    simp [dualP, nameFree]
    exact nameFree_chanSelf l (dualP b) (ih hnf)
  | hself l => intro _; simp [dualP, nameFree]
  | hst v b ih =>
    intro hnf
    simp [nameFree] at hnf
    simp [dualP, nameFree, ih hnf]
  | hrt v b ih =>
    intro hnf
    simp [nameFree] at hnf
    simp [dualP, nameFree, ih hnf]

theorem dualBranchesF_eq (td : TypeDefs) :
    ∀ bs : List (NameS × Ty),
      (∀ q ∈ bs, nameFree q.2 = true →
        ∀ td1 n, Ty.dualF td1 n q.2 = some (dualP q.2)) →
      nameFreeB bs = true →
      ∀ n, Ty.dualBranchesF td n bs = some (dualPB bs) := by
  intro bs
  induction bs with
  | nil => intro _ _ n; simp [Ty.dualBranchesF, dualPB]
  | cons q rest ih =>
    obtain ⟨k, t⟩ := q
    intro h hnf n
    simp [nameFreeB] at hnf
    simp [Ty.dualBranchesF, dualPB]
    rw [h (k, t) (by simp) hnf.1 td n]
    rw [ih (fun q hq => h q (by simp [hq])) hnf.2 n]
    simp

/-- On Name-free types the fuelled dual agrees with the pure skeleton
at every fuel (the Name case is the only fuel consumer). -/
theorem dualF_eq_dualP :
    ∀ t, nameFree t = true → ∀ td n, Ty.dualF td n t = some (dualP t) := by
  intro t
  induction t using Ty.inductionOn with
  | hprim p => intro _ td n; simp [Ty.dualF, dualP]
  | hchan t _ => intro _ td n; simp [Ty.dualF, dualP]
  | hvar v => intro _ td n; simp [Ty.dualF, dualP]
  | hname g args _ => intro hnf; simp [nameFree] at hnf
  | hsend t u _ ihu =>
    intro hnf td n
    simp [nameFree] at hnf
    simp [Ty.dualF, dualP, ihu hnf.2 td n]
  | hreceive t u _ ihu =>
    intro hnf td n
    simp [nameFree] at hnf
    simp [Ty.dualF, dualP, ihu hnf.2 td n]
  | heither bs ih =>
    intro hnf td n
    simp [nameFree] at hnf
    simp [Ty.dualF, dualP, dualBranchesF_eq td bs ih hnf n]
  | hchoice bs ih =>
    intro hnf td n
    simp [nameFree] at hnf
    simp [Ty.dualF, dualP, dualBranchesF_eq td bs ih hnf n]
  | hbreak => intro _ td n; simp [Ty.dualF, dualP]
  | hcont => intro _ td n; simp [Ty.dualF, dualP]
  | hrec asc l b ih =>
    intro hnf td n
    simp [nameFree] at hnf
    simp [Ty.dualF, dualP, ih hnf td n]
  | hiter asc l b ih =>
    intro hnf td n
    simp [nameFree] at hnf
    simp [Ty.dualF, dualP, ih hnf td n]
  | hself l => intro _ td n; simp [Ty.dualF, dualP]
  | hst v b ih =>
    intro hnf td n
    simp [nameFree] at hnf
    simp [Ty.dualF, dualP, ih hnf td n]
  | hrt v b ih =>
    intro hnf td n
    simp [nameFree] at hnf
    simp [Ty.dualF, dualP, ih hnf td n]

/-! Concrete inputs and observer callbacks used by the claim theorems. -/

/-- Empty type definitions. -/
def td0 : TypeDefs := { globals := [], vars := [] }

/-- Type definitions with a single alias A defined as the unit type. -/
def tdA : TypeDefs := { globals := [("A", ([], .break_))], vars := [] }

/-- A concrete Name-free and Chan-free fixpoint type. -/
def tCw : Ty :=
  .recursive [] (some "r")
    (.send (.var "a") (.either [("go", .self_ (some "r")), ("stop", .break_)]))

/-- A fixed already-typed process returned by observer callbacks. -/
def obsProc : Proc Ty := .doP "" .break_ .break_

/-- An observer analyze callback: returns its input context unchanged,
no inferred type and a fixed process, so that theorems can see exactly
which context the checker hands to the process analysis. -/
def obsAnalyze : Analyze := fun c _ => M.pureM (obsProc, none, c)

/-- A checker context over empty definitions whose sole variable x has
the unit-dual type. -/
def ctxLink : Ctx :=
  { typeDefs := td0, declarations := [], uncheckedDefinitions := [],
    currentDeps := [], varMap := [("x", .continue_)], loopPoints := [] }

/-- ctxLink after x has been consumed. -/
def ctxLinkUsed : Ctx :=
  { typeDefs := td0, declarations := [], uncheckedDefinitions := [],
    currentDeps := [], varMap := [], loopPoints := [] }

/-- Is the command a Loop? -/
def Cmd.isLoop {b : Type} : Cmd b → Bool
  | .loop _ _ => true
  | _ => false

/-- The unfolding-prelude schedule as the specification words it (Name
resolved always; Iterative expanded unless the command is a Begin or a
Loop; Recursive expanded unless the command is a Link or a Loop; a
Chan resolved when its dual is not a Chan), over the same per-command
arms as the source.  This definition follows the claim text, not the
source, and serves as a foil for comparison with checkCommandF. -/
def checkCommandClaimedF : Nat → Option NameS → Ctx → NameS → Ty → Cmd Unit → Analyze →
    M (Cmd Ty × Option Ty × Ctx)
  | 0, _, _, _, _, _, _ => M.out
  | n + 1, subj, ctx, obj, typ, cmd, f =>
    match typ with
    | .name g args => do
      let t ← M.liftOE (OE.ofExcept (ctx.typeDefs.get g args))
      checkCommandClaimedF n subj ctx obj t cmd f
    | .iterative asc l b =>
      if cmd.isBeginOrLoop then
        checkCommandArmsF n subj ctx obj (.iterative asc l b) cmd f
      else do
        let ex ← M.liftOE (OE.ofOption (Ty.expandIterativeF ctx.typeDefs n asc l b))
        checkCommandClaimedF n subj ctx obj ex cmd f
    | .recursive asc l b =>
      if cmd.isLink || cmd.isLoop then
        checkCommandArmsF n subj ctx obj (.recursive asc l b) cmd f
      else do
        let ex ← M.liftOE (OE.ofOption (Ty.expandRecursiveF ctx.typeDefs n asc l b))
        checkCommandClaimedF n subj ctx obj ex cmd f
    | .chan d => do
      let dd ← M.liftOE (OE.ofOption (Ty.dualF ctx.typeDefs n d))
      match dd with
      | .chan _ => checkCommandArmsF n subj ctx obj (.chan d) cmd f
      | t => checkCommandClaimedF n subj ctx obj t cmd f
    | t => checkCommandArmsF n subj ctx obj t cmd f

/-! Claim C1: duality involution. -/

/-- C1: counterexample to involution as stated: the alias A, defined
as the unit type and well-formed against the installed definitions,
is resolved through get_dual by Type::dual, so dualizing twice yields
the unit type itself rather than the alias A: dual(dual(t)) is not
structurally identical to t. -/
theorem c1_dual_involution_counterexample :
    validateTypeF tdA 5 (.name "A" []) [] [] [] = some (.ok ()) ∧
    (Ty.dualF tdA 5 (.name "A" [])).bind (Ty.dualF tdA 5) = some .break_ ∧
    (Ty.dualF tdA 5 (.name "A" [])).bind (Ty.dualF tdA 5) ≠ some (.name "A" []) := by
  have h2 : (Ty.dualF tdA 5 (.name "A" [])).bind (Ty.dualF tdA 5) = some Ty.break_ := by
    simp [Ty.dualF, Ty.getDualF, tdA, TypeDefs.get, alookup, substSeq,
      OE.bindE, OE.pureE, OE.ofExcept]
  refine ⟨rfl, h2, ?_⟩
  rw [h2]
  intro h
  exact Ty.noConfusion (Option.some.inj h)

/-- C1 (amended): on the fragment of types free of Name references and
of Chan constructors, duality is an involution at every fuel:
dual(dual(t)) = t. -/
theorem c1_dual_involution (td : TypeDefs) (t : Ty) (n : Nat)
    (hcf : chanFree t = true) (hnf : nameFree t = true) :
    (Ty.dualF td n t).bind (Ty.dualF td n) = some t := by
  rw [dualF_eq_dualP t hnf td n]
  show Ty.dualF td n (dualP t) = some t
  rw [dualF_eq_dualP (dualP t) (nameFree_dualP t hnf) td n, dualP_invol t hcf hnf]

theorem c1_dual_involution_witness :
    chanFree tCw = true ∧ nameFree tCw = true ∧
    (Ty.dualF td0 2 tCw).bind (Ty.dualF td0 2) = some tCw := by
  have hc : chanFree tCw = true := by
    simp [tCw, chanFree, chanFreeB, nameFree]
  have hn : nameFree tCw = true := by
    simp [tCw, nameFree, nameFreeB]
  exact ⟨hc, hn, c1_dual_involution td0 tCw 2 hc hn⟩

/-! Claim C4: Choice assignability. -/

/-- A fuelled fallible computation bind succeeds exactly when both
stages succeed. -/
theorem OE.bindE_eq_ok {α β : Type} (x : OE α) (f : α → OE β) (b : β) :
    OE.bindE x f = some (.ok b) ↔ ∃ a, x = some (.ok a) ∧ f a = some (.ok b) := by
  cases x with
  | none => simp [OE.bindE]
  | some r =>
    cases r with
    | error e => simp [OE.bindE]
    | ok a => simp [OE.bindE]

/-- Characterization of the Choice-arm loop of is_assignable_to:
success means every right-map branch has a left-map partner pointwise
assignable to it. -/
theorem assignChoiceF_char (td : TypeDefs) (fuel : Nat) (bs1 : List (NameS × Ty)) :
    ∀ (bs2 : List (NameS × Ty)) (ind : IndSet),
      Ty.assignChoiceF td fuel bs1 bs2 ind = some (.ok true) ↔
        ∀ q ∈ bs2, ∃ u, alookup bs1 q.1 = some u ∧
          Ty.assignF td fuel u q.2 ind = some (.ok true) := by
  intro bs2
  induction bs2 with
  | nil => intro ind; simp [Ty.assignChoiceF, OE.pureE]
  | cons q rest ih =>
    obtain ⟨k, u2⟩ := q
    intro ind
    rw [Ty.assignChoiceF]
    split
    next halk =>
      constructor
      · intro h
        simp [OE.pureE] at h
      · intro h
        obtain ⟨u, hu, _⟩ := h (k, u2) (by simp)
        rw [halk] at hu
        cases hu
    next u1 halk =>
      rw [OE.bindE_eq_ok]
      constructor
      · rintro ⟨a, ha, hif⟩
        cases a with
        | false => simp [OE.pureE] at hif
        | true =>
          rw [if_pos rfl, ih ind] at hif
          intro q hq
          rcases List.mem_cons.mp hq with hq1 | hq2
          · subst hq1
            exact ⟨u1, halk, ha⟩
          · exact hif q hq2
      · intro h
        obtain ⟨u, hu, hass⟩ := h (k, u2) (by simp)
        rw [halk] at hu
        cases hu
        refine ⟨true, hass, ?_⟩
        rw [if_pos rfl, ih ind]
        intro q hq
        exact h q (List.mem_cons_of_mem _ hq)

/-- C4 (amended): for Choice types, assignability additionally
requires every branch label of the left map to be present in the right
map: Choice(m1) is assignable to Choice(m2) exactly when every label
of m1 occurs in m2, every label of m2 occurs in m1, and each branch of
m2 is assignable from the corresponding branch of m1. -/
theorem c4_choice_assignability (td : TypeDefs) (fuel : Nat)
    (bs1 bs2 : List (NameS × Ty)) (ind : IndSet) :
    Ty.assignF td fuel (.choice bs1) (.choice bs2) ind = some (.ok true) ↔
      ((∀ q ∈ bs1, (alookup bs2 q.1).isSome = true) ∧
       ∀ q ∈ bs2, ∃ u, alookup bs1 q.1 = some u ∧
         Ty.assignF td fuel u q.2 ind = some (.ok true)) := by
  have heq : Ty.assignF td fuel (.choice bs1) (.choice bs2) ind =
      (if bs1.all (fun q => (alookup bs2 q.1).isSome) then
        Ty.assignChoiceF td fuel bs1 bs2 ind
      else OE.pureE false) := by
    simp [Ty.assignF]
  rw [heq]
  by_cases hall : bs1.all (fun q => (alookup bs2 q.1).isSome) = true
  · rw [if_pos hall, assignChoiceF_char]
    rw [List.all_eq_true] at hall
    constructor
    · intro h
      exact ⟨hall, h⟩
    · intro h
      exact h.2
  · rw [if_neg hall]
    constructor
    · intro h
      simp [OE.pureE] at h
    · intro h
      rw [List.all_eq_true] at hall
      exact absurd h.1 hall

/-- C4: counterexample to the claimed one-directional condition: the
left Choice map carries an extra label b absent from the right map,
each right branch is present on the left with an assignable type, yet
is_assignable_to returns false, because the source also requires every
left label to occur on the right. -/
theorem c4_choice_assignability_counterexample :
    Ty.assignF td0 0 (.choice [("a", .break_), ("b", .break_)])
      (.choice [("a", .break_)]) [] = some (.ok false) ∧
    alookup [("a", Ty.break_), ("b", Ty.break_)] "a" = some .break_ ∧
    Ty.assignF td0 0 .break_ .break_ [] = some (.ok true) := by
  refine ⟨?_, by simp [alookup], by simp [Ty.assignF, OE.pureE]⟩
  simp [Ty.assignF, alookup, OE.pureE]

/-! Claim C5: reflexivity of assignability. -/

/-- C5: the match in Type::is_assignable_to has no arm for a pair of
Primitive types, so that pair falls through to the catch-all arm:
for the primitive type Int, which is well-formed against empty
definitions, is_assignable_to(Int, Int) from the empty assumption set
returns false at every fuel, never true; assignability is not
reflexive as claimed. -/
theorem c5_assignability_not_reflexive_on_primitive :
    validateTypeF td0 1 (.primitive .int) [] [] [] = some (.ok ()) ∧
    Ty.assignF td0 0 (.primitive .int) (.primitive .int) [] = some (.ok false) ∧
    ∀ fuel, Ty.assignF td0 fuel (.primitive .int) (.primitive .int) [] ≠ some (.ok true) := by
  refine ⟨rfl, by simp [Ty.assignF, OE.pureE], ?_⟩
  intro fuel h
  simp [Ty.assignF, OE.pureE] at h

/-! Claim C6: dependency cycles in validation. -/

/-- C6: counterexample: a definition whose Name cycle passes through a
Recursive form is still rejected with DependencyCycle when installed,
because validate_type threads deps unchanged through the Recursive and
Iterative cases. -/
theorem c6_dependency_cycle_counterexample :
    TypeDefs.newWithValidationF 5 [("A", ([], .recursive [] none (.name "A" [])))] =
      some (.error (.dependencyCycle ["A"])) := by
  simp [TypeDefs.newWithValidationF, buildGlobals, validateAllF, validateTypeF,
    alookup, ainsert, sinsert, sremove, vinsert, OE.bindE, OE.pureE, OE.throwE,
    OE.ofExcept, List.dropWhile]

/-- C6 (amended): revisiting a non-variable name already on the deps
path of validate_type is rejected with DependencyCycle even when the
revisit passes through a Recursive or Iterative form, because deps is
passed through fixpoint binders unchanged. -/
theorem c6_dependency_cycle (td : TypeDefs) (g : NameS) (args : List Ty)
    (deps : List NameS) (sp sn asc : List (Option NameS)) (l : Option NameS) (n : Nat)
    (hv : g ∉ td.vars) (hg : g ∈ deps) :
    validateTypeF td (n + 1) (.name g args) deps sp sn =
      some (.error (.dependencyCycle (deps.dropWhile (fun d => d ≠ g)))) ∧
    validateTypeF td (n + 2) (.recursive asc l (.name g args)) deps sp sn =
      some (.error (.dependencyCycle (deps.dropWhile (fun d => d ≠ g)))) ∧
    validateTypeF td (n + 2) (.iterative asc l (.name g args)) deps sp sn =
      some (.error (.dependencyCycle (deps.dropWhile (fun d => d ≠ g)))) := by
  have hname : ∀ sp1 sn1, validateTypeF td (n + 1) (.name g args) deps sp1 sn1 =
      some (.error (.dependencyCycle (deps.dropWhile (fun d => d ≠ g)))) := by
    intro sp1 sn1
    rw [validateTypeF, if_pos ⟨hv, hg⟩]
    rfl
  refine ⟨hname sp sn, ?_, ?_⟩
  · rw [validateTypeF]
    exact hname _ _
  · rw [validateTypeF]
    exact hname _ _

theorem c6_dependency_cycle_witness :
    "A" ∉ td0.vars ∧ "A" ∈ ["A"] ∧
    validateTypeF td0 2 (.recursive [] none (.name "A" [])) ["A"] [] [] =
      some (.error (.dependencyCycle (["A"].dropWhile (fun d => d ≠ "A")))) :=
  ⟨by simp [td0], by simp,
    (c6_dependency_cycle td0 "A" [] ["A"] [] [] [] none 0
      (by simp [td0]) (by simp)).2.1⟩

/-! Claim C8: dropped senders at runtime. -/

/-- C8: counterexample to the claimed error signalling: when awaiting
the receiver yields nothing because the sender was dropped, the
receive step panics (the source unwraps the await with
expect "sender dropped") rather than producing any error outcome; the
runtime Error enumeration moreover has no ChannelBroken variant to
emit. -/
theorem c8_sender_dropped_counterexample :
    receiveFromStep none = RecvOutcome.panicSenderDropped := rfl

/-- C8 (amended): a task awaiting a message whose sender was dropped
observes the condition as a panic: the outcome of the receive step is
panicSenderDropped, and in particular it is neither a received message
nor an error outcome that could be forwarded to peers. -/
theorem c8_sender_dropped_panics (m : Option RtMessage) (h : m = none) :
    receiveFromStep m = RecvOutcome.panicSenderDropped ∧
    (∀ e, receiveFromStep m ≠ RecvOutcome.failed e) ∧
    (∀ v rx, receiveFromStep m ≠ RecvOutcome.received v rx) := by
  subst h
  exact ⟨rfl, fun e => by simp [receiveFromStep], fun v rx => by simp [receiveFromStep]⟩

theorem c8_sender_dropped_panics_witness :
    receiveFromStep none = RecvOutcome.panicSenderDropped ∧
    (∀ e, receiveFromStep none ≠ RecvOutcome.failed e) ∧
    (∀ v rx, receiveFromStep none ≠ RecvOutcome.received v rx) :=
  c8_sender_dropped_panics none rfl

/-! Claim C9: runtime shadowing. -/

/-- C9: the runtime Context::put rejects rebinding any already-bound
name with ShadowedObligation, making no linearity distinction on the
stored value, and the displaced old value is part of the pending
worklist handed to the drain path of throw rather than dropped. -/
theorem c9_runtime_put_shadowing (ctx : RtContext) (n : NameS) (v old : RtValue)
    (h : alookup ctx.varMap n = some old) :
    RtContext.put ctx n v =
      .error ({ varMap := [] },
        { pending := (aremove ctx.varMap n).map (fun q => q.2) ++ [old],
          err := .shadowedObligation n }) ∧
    old ∈ (aremove ctx.varMap n).map (fun q => q.2) ++ [old] := by
  refine ⟨?_, by simp⟩
  rw [RtContext.put, h]
  rfl

theorem c9_runtime_put_shadowing_witness :
    RtContext.put ⟨[("x", RtValue.sender 0)]⟩ "x" (RtValue.receiver 1) =
      .error ({ varMap := [] },
        { pending := (aremove [("x", RtValue.sender 0)] "x").map (fun q => q.2) ++
            [RtValue.sender 0],
          err := .shadowedObligation "x" }) ∧
    RtValue.sender 0 ∈ (aremove [("x", RtValue.sender 0)] "x").map (fun q => q.2) ++
      [RtValue.sender 0] :=
  c9_runtime_put_shadowing ⟨[("x", RtValue.sender 0)]⟩ "x" (RtValue.receiver 1)
    (RtValue.sender 0) rfl

/-! Claim C3: the unfolding prelude of check_command. -/

/-- C3: counterexample to the claimed unfolding schedule: on an object
of Recursive type with a Link command, the source expands the
Recursive form (Link is neither Begin nor Loop) and accepts linking a
value of the unit-dual type, while the claimed schedule, which keeps
Recursive intact for Link, reaches the Link arm at the Recursive type
and rejects the same program with CannotAssignFromTo. -/
theorem c3_unfolding_schedule_counterexample :
    checkCommandF 6 none ctxLink "o" (.recursive [] none .break_)
      (.link (.reference "x" ())) obsAnalyze [] =
      OE.pureE ((Cmd.link (.reference "x" .continue_), none, ctxLinkUsed), []) ∧
    checkCommandClaimedF 6 none ctxLink "o" (.recursive [] none .break_)
      (.link (.reference "x" ())) obsAnalyze [] =
      some (.error (.cannotAssignFromTo .continue_ (.iterative [] none .continue_))) := by
  constructor
  · simp [checkCommandF, checkCommandArmsF, checkExpressionF, ctxGetF, Ctx.getVariable,
      ctxLink, ctxLinkUsed, alookup, aremove, Cmd.isBeginOrLoop, Cmd.isLink,
      Ty.expandRecursiveF, expandRecH, Ty.dualF, Ty.checkAssignableF, Ty.assignF,
      Ty.isLinearF, Ty.isPositiveF, Ctx.cannotHaveObligationsF, Ctx.obligationsF,
      obligationsGo, obsAnalyze, M.pureM, M.bindM, M.liftOE, M.out, M.fail,
      OE.bindE, OE.pureE, OE.throwE, OE.ofExcept, OE.ofOption, Bind.bind, Pure.pure, td0]
  · simp [checkCommandClaimedF, checkCommandArmsF, checkExpressionF, ctxGetF,
      Ctx.getVariable, ctxLink, ctxLinkUsed, alookup, aremove, Cmd.isBeginOrLoop,
      Cmd.isLink, Cmd.isLoop, Ty.dualF, chanSelf, Ty.checkAssignableF, Ty.assignF,
      Ty.isLinearF, Ty.isPositiveF, obsAnalyze, M.pureM, M.bindM, M.liftOE, M.out,
      M.fail, OE.bindE, OE.pureE, OE.throwE, OE.ofExcept, OE.ofOption, Bind.bind,
      Pure.pure, td0]

/-- C3 (amended): the actual unfolding schedule of check_command:
Name is resolved for every command; Iterative is expanded exactly when
the command is not a Link; Recursive is expanded exactly when the
command is neither a Begin nor a Loop; whenever the guard blocks
expansion, the type reaches the command arms unchanged. -/
theorem c3_unfolding_schedule (n : Nat) (subj : Option NameS) (ctx : Ctx)
    (obj : NameS) (cmd : Cmd Unit) (f : Analyze) :
    (∀ g args, checkCommandF (n + 1) subj ctx obj (.name g args) cmd f =
      M.bindM (M.liftOE (OE.ofExcept (ctx.typeDefs.get g args)))
        (fun t => checkCommandF n subj ctx obj t cmd f)) ∧
    (∀ asc l b, cmd.isLink = false →
      checkCommandF (n + 1) subj ctx obj (.iterative asc l b) cmd f =
        M.bindM (M.liftOE (OE.ofOption (Ty.expandIterativeF ctx.typeDefs n asc l b)))
          (fun ex => checkCommandF n subj ctx obj ex cmd f)) ∧
    (∀ asc l b, cmd.isLink = true →
      checkCommandF (n + 1) subj ctx obj (.iterative asc l b) cmd f =
        checkCommandArmsF n subj ctx obj (.iterative asc l b) cmd f) ∧
    (∀ asc l b, cmd.isBeginOrLoop = false →
      checkCommandF (n + 1) subj ctx obj (.recursive asc l b) cmd f =
        M.bindM (M.liftOE (OE.ofOption (Ty.expandRecursiveF ctx.typeDefs n asc l b)))
          (fun ex => checkCommandF n subj ctx obj ex cmd f)) ∧
    (∀ asc l b, cmd.isBeginOrLoop = true →
      checkCommandF (n + 1) subj ctx obj (.recursive asc l b) cmd f =
        checkCommandArmsF n subj ctx obj (.recursive asc l b) cmd f) := by
  refine ⟨?_, ?_, ?_, ?_, ?_⟩
  · intro g args
    simp [checkCommandF, Bind.bind]
  · intro asc l b h
    simp [checkCommandF, h, Bind.bind]
  · intro asc l b h
    simp [checkCommandF, h]
  · intro asc l b h
    simp [checkCommandF, h, Bind.bind]
  · intro asc l b h
    simp [checkCommandF, h]

theorem c3_unfolding_schedule_witness :
    (Cmd.isLink (Cmd.break_ : Cmd Unit) = false ∧
      checkCommandF 1 none ctxLink "o" (.iterative [] none .break_)
          .break_ obsAnalyze =
        M.bindM (M.liftOE (OE.ofOption (Ty.expandIterativeF ctxLink.typeDefs 0 [] none .break_)))
          (fun ex => checkCommandF 0 none ctxLink "o" ex .break_ obsAnalyze)) ∧
    (Cmd.isBeginOrLoop (Cmd.loop none ⟨[]⟩ : Cmd Unit) = true ∧
      checkCommandF 1 none ctxLink "o" (.recursive [] none .break_)
          (.loop none ⟨[]⟩) obsAnalyze =
        checkCommandArmsF 0 none ctxLink "o" (.recursive [] none .break_)
          (.loop none ⟨[]⟩) obsAnalyze) :=
  ⟨⟨rfl, ((c3_unfolding_schedule 0 none ctxLink "o" .break_ obsAnalyze).2.1)
      [] none .break_ rfl⟩,
   ⟨rfl, ((c3_unfolding_schedule 0 none ctxLink "o" (.loop none ⟨[]⟩) obsAnalyze).2.2.2.2)
      [] none .break_ rfl⟩⟩

/-! Claim C7: the Link arm. -/

/-- C7: counterexample to the claim for arbitrary object types t: on
an object of Recursive type the Link command is accepted although the
linked expression's type is not assignable to the dual of t, because
the Link arm sees the object type only after the unfolding prelude has
expanded the Recursive form. -/
theorem c7_link_checks_dual_counterexample :
    checkCommandF 6 none ctxLink "o" (.recursive [] none .break_)
      (.link (.reference "x" ())) obsAnalyze [] =
      OE.pureE ((Cmd.link (.reference "x" .continue_), none, ctxLinkUsed), []) ∧
    Ty.dualF td0 6 (.recursive [] none .break_) = some (.iterative [] none .continue_) ∧
    Ty.assignF td0 6 .continue_ (.iterative [] none .continue_) [] = some (.ok false) := by
  refine ⟨?_, by simp [Ty.dualF, chanSelf], by simp [Ty.assignF, OE.pureE]⟩
  simp [checkCommandF, checkCommandArmsF, checkExpressionF, ctxGetF, Ctx.getVariable,
    ctxLink, ctxLinkUsed, alookup, aremove, Cmd.isBeginOrLoop, Cmd.isLink,
    Ty.expandRecursiveF, expandRecH, Ty.dualF, Ty.checkAssignableF, Ty.assignF,
    Ty.isLinearF, Ty.isPositiveF, Ctx.cannotHaveObligationsF, Ctx.obligationsF,
    obligationsGo, obsAnalyze, M.pureM, M.bindM, M.liftOE, M.out, M.fail,
    OE.bindE, OE.pureE, OE.throwE, OE.ofExcept, OE.ofOption, Bind.bind, Pure.pure, td0]

/-- C7 (amended): the Link arm checks the linked expression against
the dual of the object type as the arm receives it after the unfolding
prelude (which expands a Recursive object before the arm, rather than
handing over the original type), and then requires the linear context
to be empty: with remaining obligations it fails with
UnfulfilledObligations, with none the Link is accepted. -/
theorem c7_link_checks_dual (n : Nat) (subj : Option NameS) (ctx : Ctx) (obj : NameS)
    (typ : Ty) (e : Expr Unit) (f : Analyze) (d : Ty) (e1 : Expr Ty) (ctx1 : Ctx)
    (s s1 : Cache)
    (hd : Ty.dualF ctx.typeDefs n typ = some d)
    (hc : checkExpressionF n none ctx e d s = OE.pureE ((e1, ctx1), s1)) :
    (ctx1.obligationsF n = some [] →
      checkCommandArmsF (n + 1) subj ctx obj typ (.link e) f s =
        OE.pureE ((Cmd.link e1, none, ctx1), s1)) ∧
    (∀ x xs, ctx1.obligationsF n = some (x :: xs) →
      checkCommandArmsF (n + 1) subj ctx obj typ (.link e) f s =
        some (.error (.unfulfilledObligations (x :: xs)))) := by
  constructor
  · intro hobl
    simp [checkCommandArmsF, Bind.bind, M.bindM, M.liftOE, M.pureM, Pure.pure,
      OE.ofOption, hd, hc, Ctx.cannotHaveObligationsF, hobl, OE.bindE, OE.pureE]
  · intro x xs hobl
    simp [checkCommandArmsF, Bind.bind, M.bindM, M.liftOE, M.pureM, Pure.pure,
      OE.ofOption, hd, hc, Ctx.cannotHaveObligationsF, hobl, OE.bindE, OE.pureE,
      OE.throwE]

theorem c7_link_checks_dual_witness :
    ctxLinkUsed.obligationsF 3 = some [] ∧
    checkCommandArmsF 4 none ctxLink "o" .break_
      (.link (.reference "x" ())) obsAnalyze [] =
      OE.pureE ((Cmd.link (.reference "x" .continue_), none, ctxLinkUsed), []) := by
  have hd : Ty.dualF ctxLink.typeDefs 3 .break_ = some .continue_ := by
    simp [ctxLink, Ty.dualF]
  have hc : checkExpressionF 3 none ctxLink (.reference "x" ()) .continue_ [] =
      OE.pureE ((.reference "x" .continue_, ctxLinkUsed), []) := by
    simp [checkExpressionF, ctxGetF, Ctx.getVariable, ctxLink, ctxLinkUsed, alookup,
      aremove, Ty.checkAssignableF, Ty.assignF, Ty.isLinearF, Ty.isPositiveF,
      M.pureM, M.bindM, M.liftOE, M.fail, OE.bindE, OE.pureE, OE.ofExcept,
      Bind.bind, Pure.pure, td0]
  have hobl : ctxLinkUsed.obligationsF 3 = some [] := by
    simp [Ctx.obligationsF, obligationsGo, ctxLinkUsed]
  exact ⟨hobl,
    (c7_link_checks_dual 3 none ctxLink "o" .break_ (.reference "x" ()) obsAnalyze
      .continue_ (.reference "x" .continue_) ctxLinkUsed [] [] hd hc).1 hobl⟩


/-! Claim C2: ascendant tracking of begin and loop. -/

/-- Inserting a key makes it found with the inserted value. -/
theorem alookup_ainsert_self {β : Type} (l : List (NameS × β)) (k : NameS) (v : β) :
    alookup (ainsert l k v) k = some v := by
  induction l with
  | nil => simp [ainsert, alookup]
  | cons q rest ih =>
    obtain ⟨k1, v1⟩ := q
    by_cases h : k1 = k
    · simp [ainsert, alookup, h]
    · simp [ainsert, alookup, h, ih]

/-- Inserting an optional key makes it found with the inserted value. -/
theorem olookup_oinsert_self {β : Type} (l : List (Option NameS × β))
    (k : Option NameS) (v : β) :
    olookup (oinsert l k v) k = some v := by
  induction l with
  | nil => simp [oinsert, olookup]
  | cons q rest ih =>
    obtain ⟨k1, v1⟩ := q
    by_cases h : k1 = k
    · simp [oinsert, olookup, h]
    · simp [oinsert, olookup, h, ih]

/-- Context::put only touches the variable map: loop points and type
definitions are preserved on success. -/
theorem putF_preserves (fuel : Nat) (c : Ctx) (nm : NameS) (t : Ty) (c1 : Ctx)
    (h : Ctx.putF fuel c nm t = OE.pureE c1) :
    c1.loopPoints = c.loopPoints ∧ c1.typeDefs = c.typeDefs := by
  rw [Ctx.putF] at h
  cases halk : alookup c.varMap nm with
  | none =>
    rw [halk] at h
    have h2 : ({ c with varMap := ainsert c.varMap nm t } : Ctx) = c1 :=
      Except.ok.inj (Option.some.inj h)
    rw [← h2]
    exact ⟨rfl, rfl⟩
  | some told =>
    rw [halk] at h
    have h2 : OE.bindE (Ty.isLinearF c.typeDefs fuel told) (fun lin =>
        if lin = true then OE.throwE (.shadowedObligation nm)
        else OE.pureE { c with varMap := ainsert c.varMap nm t }) = OE.pureE c1 := h
    cases hlin : Ty.isLinearF c.typeDefs fuel told with
    | none => rw [hlin] at h2; cases h2
    | some r =>
      cases r with
      | error e =>
        rw [hlin] at h2
        simp [OE.bindE, OE.pureE] at h2
      | ok lin =>
        rw [hlin] at h2
        cases lin with
        | true =>
          simp [OE.bindE, OE.throwE, OE.pureE] at h2
        | false =>
          simp only [OE.bindE, Bool.false_eq_true, if_false, OE.pureE] at h2
          have h3 : ({ c with varMap := ainsert c.varMap nm t } : Ctx) = c1 :=
            Except.ok.inj (Option.some.inj h2)
          rw [← h3]
          exact ⟨rfl, rfl⟩

/-- The ascendant set stored by the Begin arm: the begin label is
inserted unless the begin is unfounded. -/
def beginAsc (unfounded : Bool) (tAsc : List (Option NameS)) (lbl : Option NameS) :
    List (Option NameS) :=
  if unfounded then tAsc else sinsert tAsc lbl

/-- The context constructed by the Begin arm before re-binding the
object: ascendants invalidated in every variable, and the loop point
registered with the captures-filtered snapshot plus the object at the
ascendant-extended Recursive type. -/
def beginCtx (ctx : Ctx) (obj : NameS) (tAsc : List (Option NameS))
    (tLabel : Option NameS) (tBody : Ty) (lbl : Option NameS) (caps : Captures)
    (unfounded : Bool) : Ctx :=
  { ctx.invalidateAscendent lbl with
    loopPoints := oinsert (ctx.invalidateAscendent lbl).loopPoints lbl
      (obj, ainsert ((ctx.invalidateAscendent lbl).varMap.filter
          (fun q => q.1 ∈ caps.names)) obj
        (.recursive (beginAsc unfounded tAsc lbl) tLabel tBody)) }

/-- Associativity of the fallible-computation bind. -/
theorem OE.bindE_assoc {α β γ : Type} (x : OE α) (f : α → OE β) (g : β → OE γ) :
    OE.bindE (OE.bindE x f) g = OE.bindE x (fun a => OE.bindE (f a) g) := by
  cases x with
  | none => rfl
  | some r => cases r with
    | error e => rfl
    | ok a => rfl

/-- Binding a pure fallible computation applies the continuation. -/
theorem OE.bindE_pure_left {α β : Type} (a : α) (f : α → OE β) :
    OE.bindE (OE.pureE a) f = f a := rfl

/-- Binding a successful fallible computation applies the
continuation. -/
theorem OE.bindE_some_ok {α β : Type} (a : α) (f : α → OE β) :
    OE.bindE (some (.ok a)) f = f a := rfl

/-- Running a lifted fallible computation. -/
theorem M.liftOE_run {α : Type} (x : OE α) (s : Cache) :
    M.liftOE x s = OE.bindE x (fun a => OE.pureE (a, s)) := rfl

/-- Invalidating ascendants touches only the variable map. -/
theorem invalidateAsc_typeDefs (ctx : Ctx) (lbl : Option NameS) :
    (Ctx.invalidateAscendent ctx lbl).typeDefs = ctx.typeDefs := rfl

/-- The Begin arm of check_command factored through beginAsc and
beginCtx: expand the Recursive at the extended ascendants, re-bind the
object, analyze the body, and wrap an inferred body type into an
Iterative. -/
theorem checkBeginArm_eq (n : Nat) (subj : Option NameS) (ctx : Ctx) (obj : NameS)
    (tAsc : List (Option NameS)) (tLabel : Option NameS) (tBody : Ty)
    (lbl : Option NameS) (caps : Captures) (unfounded : Bool) (body : Proc Unit)
    (f : Analyze) (s : Cache) :
    checkCommandArmsF (n + 1) subj ctx obj (.recursive tAsc tLabel tBody)
        (.begin unfounded lbl caps body) f s =
      OE.bindE (OE.ofOption (Ty.expandRecursiveF ctx.typeDefs n
          (beginAsc unfounded tAsc lbl) tLabel tBody)) (fun ex =>
        OE.bindE (Ctx.putF n (beginCtx ctx obj tAsc tLabel tBody lbl caps unfounded) obj ex)
          (fun ctx3 =>
            OE.bindE (f ctx3 body s) (fun r =>
              OE.pureE ((Cmd.begin unfounded lbl caps r.1.1,
                r.1.2.1.map (fun bT => Ty.iterative (beginAsc unfounded tAsc lbl) lbl bT),
                r.1.2.2), r.2)))) := by
  simp only [checkCommandArmsF, beginAsc, beginCtx, Bind.bind, Pure.pure, M.pureM,
    M.bindM, M.liftOE_run, OE.bindE_assoc, OE.bindE_pure_left, invalidateAsc_typeDefs]

/-- C2: the Begin arm on a Recursive object stores a loop point whose
snapshot binds the object at the Recursive type with the begin label
inserted into the ascendants exactly when the begin is not unfounded;
and the Loop arm fails with DoesNotDescendSubjectOfBegin whenever some
ascendant recorded in the begin-time snapshot of the object is missing
from the object's current ascendants. -/
theorem c2_begin_loop_ascendants :
    (∀ (n : Nat) (subj : Option NameS) (ctx : Ctx) (obj : NameS)
       (tAsc : List (Option NameS)) (lbl tLabel : Option NameS) (tBody : Ty)
       (caps : Captures) (body : Proc Unit) (unfounded : Bool) (ex : Ty)
       (ctx3 : Ctx) (s : Cache),
       Ty.expandRecursiveF ctx.typeDefs n (beginAsc unfounded tAsc lbl) tLabel tBody =
         some ex →
       Ctx.putF n (beginCtx ctx obj tAsc tLabel tBody lbl caps unfounded) obj ex =
         OE.pureE ctx3 →
       checkCommandF (n + 2) subj ctx obj (.recursive tAsc tLabel tBody)
           (.begin unfounded lbl caps body) obsAnalyze s =
         OE.pureE ((Cmd.begin unfounded lbl caps obsProc, none, ctx3), s) ∧
       ∃ snap, olookup ctx3.loopPoints lbl = some (obj, snap) ∧
         alookup snap obj =
           some (.recursive (beginAsc unfounded tAsc lbl) tLabel tBody)) ∧
    (∀ (n : Nat) (subj : Option NameS) (ctx : Ctx) (obj : NameS)
       (asc1 : List (Option NameS)) (l1 : Option NameS) (b1 : Ty)
       (lbl : Option NameS) (caps : Captures) (driver : NameS)
       (snapVars : List (NameS × Ty)) (asc2 : List (Option NameS))
       (l2 : Option NameS) (b2 : Ty) (ctxp : Ctx) (s : Cache),
       olookup ctx.loopPoints lbl = some (driver, snapVars) →
       Ctx.putF n ctx driver (.recursive asc1 l1 b1) = OE.pureE ctxp →
       alookup snapVars driver = some (.recursive asc2 l2 b2) →
       (∃ m, m ∈ asc2 ∧ m ∉ asc1) →
       ∃ missing, missing ∈ asc2 ∧ missing ∉ asc1 ∧
         ∀ f, checkCommandF (n + 2) subj ctx obj (.recursive asc1 l1 b1)
             (.loop lbl caps) f s =
           some (.error (.doesNotDescendSubjectOfBegin missing))) := by
  constructor
  · intro n subj ctx obj tAsc lbl tLabel tBody caps body unfounded ex ctx3 s hex hput
    have hrun : checkCommandF (n + 2) subj ctx obj (.recursive tAsc tLabel tBody)
        (.begin unfounded lbl caps body) obsAnalyze s =
        OE.pureE ((Cmd.begin unfounded lbl caps obsProc, none, ctx3), s) := by
      have hpre : checkCommandF (n + 2) subj ctx obj (.recursive tAsc tLabel tBody)
          (.begin unfounded lbl caps body) obsAnalyze s =
          checkCommandArmsF (n + 1) subj ctx obj (.recursive tAsc tLabel tBody)
            (.begin unfounded lbl caps body) obsAnalyze s := by
        simp [checkCommandF, Cmd.isBeginOrLoop]
      rw [hpre, checkBeginArm_eq, hex]
      simp only [OE.ofOption, Option.map, OE.bindE_some_ok]
      rw [hput]
      simp [OE.bindE_pure_left, obsAnalyze, M.pureM, OE.bindE_some_ok, OE.pureE]
    refine ⟨hrun, ?_⟩
    have hlp : ctx3.loopPoints =
        (beginCtx ctx obj tAsc tLabel tBody lbl caps unfounded).loopPoints :=
      (putF_preserves n _ obj ex ctx3 hput).1
    refine ⟨ainsert ((ctx.invalidateAscendent lbl).varMap.filter
        (fun q => q.1 ∈ caps.names)) obj
        (.recursive (beginAsc unfounded tAsc lbl) tLabel tBody), ?_, ?_⟩
    · rw [hlp]
      exact olookup_oinsert_self _ _ _
    · exact alookup_ainsert_self _ _ _
  · intro n subj ctx obj asc1 l1 b1 lbl caps driver snapVars asc2 l2 b2 ctxp s
      hlp hput hsnap hmiss
    obtain ⟨m0, hm0, hm0n⟩ := hmiss
    have hex : ∃ x, x ∈ asc2 ∧ (fun l => !decide (l ∈ asc1)) x = true :=
      ⟨m0, hm0, by simpa using hm0n⟩
    have hs : (asc2.find? (fun l => !decide (l ∈ asc1))).isSome := by
      rw [List.find?_isSome]
      simpa using hex
    obtain ⟨missing, hfind⟩ := Option.isSome_iff_exists.mp hs
    have hmem : missing ∈ asc2 := List.mem_of_find?_eq_some hfind
    have hpr : missing ∉ asc1 := by simpa using List.find?_some hfind
    refine ⟨missing, hmem, hpr, ?_⟩
    intro f
    have hpre : checkCommandF (n + 2) subj ctx obj (.recursive asc1 l1 b1)
        (.loop lbl caps) f s =
        checkCommandArmsF (n + 1) subj ctx obj (.recursive asc1 l1 b1)
          (.loop lbl caps) f s := by
      simp [checkCommandF, Cmd.isBeginOrLoop]
    rw [hpre]
    simp [checkCommandArmsF, hlp, hput, hsnap, hfind, Bind.bind, M.bindM, M.liftOE_run,
      OE.bindE_assoc, OE.bindE_some_ok, OE.bindE_pure_left, OE.pureE, M.fail,
      OE.bindE, OE.throwE]

/-- The loop-point context of the concrete begin/loop witness. -/
def ctxB2 : Ctx :=
  { typeDefs := td0, declarations := [], uncheckedDefinitions := [], currentDeps := [],
    varMap := [],
    loopPoints := [(some "g", ("o", [("o", Ty.recursive [some "g"] none .break_)]))] }

/-- ctxB2 with the object re-bound at the expanded begin type. -/
def ctxB3 : Ctx := { ctxB2 with varMap := [("o", Ty.break_)] }

theorem c2_begin_loop_ascendants_witness :
    (checkCommandF 2 none ctxLinkUsed "o" (.recursive [] none .break_)
        (.begin false (some "g") ⟨[]⟩ (.doP "c" () .break_)) obsAnalyze [] =
      OE.pureE ((Cmd.begin false (some "g") ⟨[]⟩ obsProc, none, ctxB3), []) ∧
      ∃ snap, olookup ctxB3.loopPoints (some "g") = some ("o", snap) ∧
        alookup snap "o" = some (.recursive (beginAsc false [] (some "g")) none .break_)) ∧
    (∃ missing, missing ∈ [some "g"] ∧ missing ∉ ([] : List (Option NameS)) ∧
      ∀ f, checkCommandF 2 none ctxB2 "o" (.recursive [] none .break_)
          (.loop (some "g") ⟨[]⟩) f [] =
        some (.error (.doesNotDescendSubjectOfBegin missing))) := by
  have hex : Ty.expandRecursiveF ctxLinkUsed.typeDefs 0 (beginAsc false [] (some "g"))
      none .break_ = some .break_ := by
    simp [ctxLinkUsed, td0, beginAsc, sinsert, Ty.expandRecursiveF, expandRecH]
  have hput : Ctx.putF 0 (beginCtx ctxLinkUsed "o" [] none .break_ (some "g") ⟨[]⟩ false)
      "o" .break_ = OE.pureE ctxB3 := by
    simp [beginCtx, beginAsc, sinsert, Ctx.invalidateAscendent, ctxLinkUsed, ctxB2,
      ctxB3, Ctx.putF, alookup, ainsert, oinsert, OE.pureE, td0]
  have hlp : olookup ctxB2.loopPoints (some "g") =
      some ("o", [("o", Ty.recursive [some "g"] none .break_)]) := by
    simp [ctxB2, olookup]
  have hput2 : Ctx.putF 0 ctxB2 "o" (.recursive [] none .break_) =
      OE.pureE { ctxB2 with varMap := [("o", Ty.recursive [] none .break_)] } := by
    simp [Ctx.putF, ctxB2, alookup, ainsert, OE.pureE]
  have hsnap : alookup [("o", Ty.recursive [some "g"] none .break_)] "o" =
      some (.recursive [some "g"] none .break_) := by
    simp [alookup]
  exact ⟨(c2_begin_loop_ascendants.1 0 none ctxLinkUsed "o" [] (some "g") none .break_
      ⟨[]⟩ (.doP "c" () .break_) false .break_ ctxB3 [] hex hput),
    (c2_begin_loop_ascendants.2 0 none ctxB2 "o" [] none .break_ (some "g") ⟨[]⟩
      "o" [("o", Ty.recursive [some "g"] none .break_)] [some "g"] none .break_
      { ctxB2 with varMap := [("o", Ty.recursive [] none .break_)] } []
      hlp hput2 hsnap ⟨some "g", by simp, by simp⟩)⟩


/-! Claim C10: branch isolation in Match checking. -/

/-- C10: the Match arm dispatches to the branch loop started from the
original context (first conjunct); one iteration of the branch loop is
entirely independent of the context produced by the preceding branch
(second conjunct, the two runs differ exactly in that context); and
under the observer callback each branch is analyzed in the context
obtained by re-binding the object in the original context, so the
second branch sees none of the effects of the first (third
conjunct). -/
theorem c10_match_branch_isolation :
    (∀ (n : Nat) (subj : Option NameS) (ctx : Ctx) (obj : NameS)
       (req : List (NameS × Ty)) (bs : List NameS) (ps : List (Proc Unit))
       (f : Analyze) (s : Cache),
       (∀ q ∈ req, q.1 ∈ bs) →
       checkCommandF (n + 2) subj ctx obj (.either req) (.matchC bs ps) f s =
         OE.bindE (matchLoopF n ctx obj req (.either req) f bs ps [] none ctx s)
           (fun r => OE.pureE ((Cmd.matchC bs r.1.1, r.1.2.1, r.1.2.2), r.2))) ∧
    (∀ (fuel : Nat) (orig : Ctx) (obj : NameS) (req : List (NameS × Ty)) (typF : Ty)
       (f : Analyze) (b : NameS) (bs : List NameS) (p : Proc Unit)
       (ps : List (Proc Unit)) (acc : List (Proc Ty)) (inf : Option Ty)
       (cur1 cur2 : Ctx),
       matchLoopF fuel orig obj req typF f (b :: bs) (p :: ps) acc inf cur1 =
         matchLoopF fuel orig obj req typF f (b :: bs) (p :: ps) acc inf cur2) ∧
    (∀ (fuel : Nat) (orig : Ctx) (obj : NameS) (req : List (NameS × Ty)) (typF : Ty)
       (b1 b2 : NameS) (t1 t2 : Ty) (p1 p2 : Proc Unit) (c1 c2 : Ctx)
       (acc : List (Proc Ty)) (cur : Ctx) (s : Cache),
       alookup req b1 = some t1 → alookup req b2 = some t2 →
       Ctx.putF fuel orig obj t1 = OE.pureE c1 →
       Ctx.putF fuel orig obj t2 = OE.pureE c2 →
       matchLoopF fuel orig obj req typF obsAnalyze [b1, b2] [p1, p2] acc none cur s =
         OE.pureE ((acc ++ [obsProc, obsProc], none, c2), s)) := by
  refine ⟨?_, ?_, ?_⟩
  · intro n subj ctx obj req bs ps f s hmiss
    have hfind : req.find? (fun q => !(bs.contains q.1)) = none := by
      apply List.find?_eq_none.mpr
      intro x hx
      simpa using hmiss x hx
    have hpre : checkCommandF (n + 2) subj ctx obj (.either req) (.matchC bs ps) f s =
        checkCommandArmsF (n + 1) subj ctx obj (.either req) (.matchC bs ps) f s := by
      simp [checkCommandF]
    rw [hpre]
    simp only [checkCommandArmsF, hfind, Bind.bind, M.bindM, M.pureM, Pure.pure]
  · intro fuel orig obj req typF f b bs p ps acc inf cur1 cur2
    rfl
  · intro fuel orig obj req typF b1 b2 t1 t2 p1 p2 c1 c2 acc cur s h1 h2 hput1 hput2
    simp [matchLoopF, h1, h2, hput1, hput2, obsAnalyze, M.pureM, M.bindM,
      M.liftOE_run, Bind.bind, Pure.pure, OE.bindE_assoc, OE.bindE_some_ok,
      OE.bindE_pure_left, OE.pureE]

theorem c10_match_branch_isolation_witness :
    ((∀ q ∈ [("a", Ty.break_)], q.1 ∈ ["a"]) ∧
      checkCommandF 2 none ctxLinkUsed "o" (.either [("a", .break_)])
          (.matchC ["a"] [.doP "c" () .break_]) obsAnalyze [] =
        OE.bindE (matchLoopF 0 ctxLinkUsed "o" [("a", .break_)] (.either [("a", .break_)])
            obsAnalyze ["a"] [.doP "c" () .break_] [] none ctxLinkUsed [])
          (fun r => OE.pureE ((Cmd.matchC ["a"] r.1.1, r.1.2.1, r.1.2.2), r.2))) ∧
    matchLoopF 0 ctxLinkUsed "o" [("a", Ty.break_), ("b", Ty.continue_)] .break_
        obsAnalyze ["a", "b"] [.doP "c" () .break_, .doP "d" () .break_] [] none ctxB2 [] =
      OE.pureE (([obsProc, obsProc], none,
        { ctxLinkUsed with varMap := [("o", Ty.continue_)] }), []) := by
  have hm : ∀ q ∈ [("a", Ty.break_)], q.1 ∈ ["a"] := by simp
  have h1 : alookup [("a", Ty.break_), ("b", Ty.continue_)] "a" = some .break_ := by
    simp [alookup]
  have h2 : alookup [("a", Ty.break_), ("b", Ty.continue_)] "b" = some .continue_ := by
    simp [alookup]
  have hput1 : Ctx.putF 0 ctxLinkUsed "o" .break_ =
      OE.pureE { ctxLinkUsed with varMap := [("o", Ty.break_)] } := by
    simp [Ctx.putF, ctxLinkUsed, alookup, ainsert, OE.pureE]
  have hput2 : Ctx.putF 0 ctxLinkUsed "o" .continue_ =
      OE.pureE { ctxLinkUsed with varMap := [("o", Ty.continue_)] } := by
    simp [Ctx.putF, ctxLinkUsed, alookup, ainsert, OE.pureE]
  refine ⟨⟨hm, c10_match_branch_isolation.1 0 none ctxLinkUsed "o" [("a", .break_)]
      ["a"] [.doP "c" () .break_] obsAnalyze [] hm⟩, ?_⟩
  have h3 := c10_match_branch_isolation.2.2 0 ctxLinkUsed "o"
    [("a", Ty.break_), ("b", Ty.continue_)] .break_ "a" "b" .break_ .continue_
    (.doP "c" () .break_) (.doP "d" () .break_)
    { ctxLinkUsed with varMap := [("o", Ty.break_)] }
    { ctxLinkUsed with varMap := [("o", Ty.continue_)] } [] ctxB2 [] h1 h2 hput1 hput2
  simpa using h3


end ParLang
